import Mathlib

/-!
Verification of the PrizePicks OCR extraction pipeline
(`src/client/lib/ocr-processor.ts`).

Strings are modelled as `List Char` (one entry per code point).  JavaScript
floating-point numbers carrying money amounts, confidences and scores are
modelled as exact rationals `ℚ`; every numeric literal appearing in the
source is exactly representable, and all arithmetic the claims depend on
(min/max selection, comparisons against decimal constants, halving
penalties) is exact in both models.

Rational constants and products are built through `mkRat`-based helpers so
that every definition evaluates inside the kernel; bridging lemmas restate
them with ordinary `ℚ` operations for use in theorem statements.
-/

/-! ## Character helpers (ASCII model of the JS regex character classes) -/

/-- Decimal digit, the JS regex class `\d` (ASCII range). -/
def digitChar (c : Char) : Bool := '0' ≤ c && c ≤ '9'

/-- ASCII lower-case letter, the JS regex class `[a-z]`. -/
def lowerAlpha (c : Char) : Bool := 'a' ≤ c && c ≤ 'z'

/-- ASCII upper-case letter, the JS regex class `[A-Z]`. -/
def upperAlpha (c : Char) : Bool := 'A' ≤ c && c ≤ 'Z'

/-- Alphanumeric character, `[a-zA-Z0-9]`. -/
def alnumChar (c : Char) : Bool := lowerAlpha c || upperAlpha c || digitChar c

/-- Whitespace as matched by the JS regex class `\s` and by `trim`
(ASCII part: space, tab, line feed, vertical tab, form feed,
carriage return). -/
def jsWhitespace (c : Char) : Bool :=
  c = ' ' || c = '\t' || c = '\n' || c = '\x0b' || c = '\x0c' || c = '\r'

/-- Word character for the JS regex boundary `\b`: `[A-Za-z0-9_]`. -/
def wordChar (c : Char) : Bool := alnumChar c || c = '_'

/-- ASCII lower-casing of one character, the model of
`String.prototype.toLowerCase` (the texts the claims quantify over are
compared against ASCII keywords only). -/
def toLowerChar (c : Char) : Char :=
  if upperAlpha c then Char.ofNat (c.toNat + 32) else c

/-- Lower-casing of a whole string. -/
def toLowerStr (l : List Char) : List Char := l.map toLowerChar

/-- Numeric value of a digit string, most significant first
(the integer part of JS `parseFloat`). -/
def digitsVal (l : List Char) : ℕ := l.foldl (fun acc c => 10 * acc + (c.toNat - 48)) 0

/-! ## Exact rational helpers

`Rat.add`/`Rat.mul`/`Rat.div` do not reduce inside the kernel, so the
embedding builds every rational through `mkRat` on numerator/denominator
data, which does reduce.  The bridging lemmas below restate the helpers
with the ordinary field operations for readable theorem statements. -/

/-- Exact product of two rationals, kernel-computable. -/
def qmul (a b : ℚ) : ℚ := mkRat (a.num * b.num) (a.den * b.den)

/-- Exact quotient of a rational by a natural number, kernel-computable.
Models JS `x / k` for the nonzero constant divisors used by the source. -/
def qdivN (a : ℚ) (k : ℕ) : ℚ := mkRat a.num (a.den * k)

theorem qmul_eq (a b : ℚ) : qmul a b = a * b := by
  rw [qmul, Rat.mkRat_eq_div]
  push_cast
  rw [← div_mul_div_comm, Rat.num_div_den, Rat.num_div_den]

theorem qdivN_eq (a : ℚ) (k : ℕ) : qdivN a k = a / k := by
  rw [qdivN, Rat.mkRat_eq_div]
  push_cast
  rw [← div_div, Rat.num_div_den]

/-! ## C8 — payout validator (`validatePotentialPayout`, ocr-processor.ts 991–1020) -/

/-- Result shape `{isValid, errors, suggestedValue?}` returned by the
payout validator. -/
structure PayoutCheck where
  isValid : Bool
  errors : List (List Char)
  suggestedValue : Option ℚ
  deriving DecidableEq

/-- `validatePotentialPayout(payout, entry, lineupType)`: flags non-positive
payouts and payouts below the entry with suggestion `entry * 2`, payouts
above `entry * 100` with suggestion `entry * 10`, and accepts the rest.
The `lineupType` argument is unused by the source function as well. -/
def validatePotentialPayout (payout entry : ℚ) (lineupType : List Char) : PayoutCheck :=
  if payout ≤ 0 then
    ⟨false, [("Potential payout must be greater than 0").toList], some (qmul entry 2)⟩
  else if payout < entry then
    ⟨false, [("Potential payout should typically be greater than entry amount").toList],
      some (qmul entry 2)⟩
  else if qmul entry 100 < payout then
    ⟨false, [("Potential payout seems unreasonably high compared to entry").toList],
      some (qmul entry 10)⟩
  else
    ⟨true, [], none⟩

/-- C8 (counterexample): the claim says the validator accepts exactly when
`potentialPayout > entryAmount`, but on `entry = 5`, `payout = 5` the code
accepts although `5 > 5` fails. -/
theorem claim8_counterexample :
    (validatePotentialPayout 5 5 (("2-Pick").toList)).isValid = true ∧
      ¬ ((5 : ℚ) > 5 ∧ (5 : ℚ) ≤ 5 * 100) := by
  constructor
  · decide
  · intro h
    exact absurd h.1 (lt_irrefl 5)

/-- C8 (amended): the payout validator accepts a record exactly when
`potentialPayout` is positive, at least `entryAmount`, and at most
`entryAmount × 100`; otherwise it reports an error with suggested value
`entryAmount × 2` (non-positive payout or payout below entry), or
`entryAmount × 10` when the payout exceeds `entryAmount × 100`. -/
theorem claim8_payout_validator (payout entry : ℚ) (ty : List Char) :
    ((validatePotentialPayout payout entry ty).isValid = true ↔
      0 < payout ∧ entry ≤ payout ∧ payout ≤ entry * 100) ∧
    (payout ≤ 0 ∨ payout < entry →
      (validatePotentialPayout payout entry ty).suggestedValue = some (entry * 2)) ∧
    (0 < payout ∧ entry ≤ payout ∧ entry * 100 < payout →
      (validatePotentialPayout payout entry ty).suggestedValue = some (entry * 10)) := by
  unfold validatePotentialPayout
  rw [show qmul entry 100 = entry * 100 from qmul_eq entry 100]
  rw [show qmul entry 2 = entry * 2 from qmul_eq entry 2]
  rw [show qmul entry 10 = entry * 10 from qmul_eq entry 10]
  split_ifs with h1 h2 h3
  · refine ⟨?_, fun _ => rfl, ?_⟩
    · simp only [Bool.false_eq_true, false_iff]
      rintro ⟨hp, -, -⟩
      linarith
    · rintro ⟨hp, -, -⟩
      exact absurd hp (not_lt.mpr h1)
  · refine ⟨?_, fun _ => rfl, ?_⟩
    · simp only [Bool.false_eq_true, false_iff]
      rintro ⟨-, he, -⟩
      linarith
    · rintro ⟨-, he, -⟩
      exact absurd he (not_le.mpr h2)
  · refine ⟨?_, ?_, fun _ => rfl⟩
    · simp only [Bool.false_eq_true, false_iff]
      rintro ⟨-, -, hle⟩
      linarith
    · rintro (h | h)
      · exact absurd h h1
      · exact absurd h h2
  · push_neg at h1 h2 h3
    refine ⟨⟨fun _ => ⟨h1, h2, h3⟩, fun _ => rfl⟩, ?_, ?_⟩
    · rintro (h | h)
      · exact absurd h (not_le.mpr h1)
      · exact absurd h (not_lt.mpr h2)
    · rintro ⟨-, -, hgt⟩
      exact absurd hgt (not_lt.mpr h3)

/-- C8 (witness): the amended theorem applied at `payout = 1`, `entry = 2`:
the payout is below the entry, so the suggested value is `entry * 2`. -/
theorem claim8_witness :
    ((1 : ℚ) ≤ 0 ∨ (1 : ℚ) < 2) ∧
      (validatePotentialPayout 1 2 (("2-Pick").toList)).suggestedValue = some (2 * 2) :=
  ⟨Or.inr (by norm_num),
    (claim8_payout_validator 1 2 (("2-Pick").toList)).2.1 (Or.inr (by norm_num))⟩

/-! ## C9 — progress percentages (`processImage` / `runMultiPassOCR`,
ocr-processor.ts 56–176, region estimate 179–239) -/

/-- `Math.floor(height * 0.15)`, the header height of `detectUIRegions`
(exact-rational model of the float product; they agree away from
representation boundaries, in particular at every input used below). -/
def headerHeightOf (h : ℕ) : ℕ := h * 15 / 100

/-- `Math.floor(height * 0.1)`, the footer height of `detectUIRegions`. -/
def footerHeightOf (h : ℕ) : ℕ := h * 10 / 100

/-- `detectUIRegions`' estimated number of player cards:
`max(2, min(6, floor(playerAreaHeight / (height * 0.12))))` for a positive
image height `h` (Nat division computes the exact rational floor). -/
def estimatedPlayerCount (h : ℕ) : ℕ :=
  max 2 (min 6 ((h - headerHeightOf h - footerHeightOf h) * 100 / (h * 12)))

/-- The sequence of percentages handed to the progress callback during one
`processImage` run whose segmentation estimated `numCards` player cards:
10 (preprocessing), 30 (start of multi-pass OCR), 30 (header pass),
`40 + i * 8` for player-card pass `i`, 75 (whole-image backup pass),
80 (processing results), 100 (done). -/
def ocrProgressValues (numCards : ℕ) : List ℕ :=
  [10, 30, 30] ++ (List.range numCards).map (fun i => 40 + i * 8) ++ [75, 80, 100]

/-- C9 (counterexample): for a 1000-pixel-high image the segmenter
estimates six player cards, and the resulting progress sequence is not
monotonically non-decreasing — the sixth card pass reports 80 and the
backup pass then reports 75. -/
theorem claim9_counterexample :
    estimatedPlayerCount 1000 = 6 ∧
      ¬ List.Chain' (· ≤ ·) (ocrProgressValues (estimatedPlayerCount 1000)) := by
  refine ⟨rfl, ?_⟩
  intro hchain
  have h : ocrProgressValues (estimatedPlayerCount 1000) =
      [10, 30, 30, 40, 48, 56, 64, 72, 80, 75, 80, 100] := rfl
  rw [h] at hchain
  simp only [List.chain'_cons, List.chain'_singleton] at hchain
  omega

/-- C9 (amended): the progress sequence is monotonically non-decreasing
whenever at most five player cards are estimated (the last card pass then
reports at most 72, below the backup pass's 75); with six cards it is not. -/
theorem claim9_progress_monotone (n : ℕ) (h : n ≤ 5) :
    List.Chain' (· ≤ ·) (ocrProgressValues n) := by
  have e0 : ocrProgressValues 0 = [10, 30, 30, 75, 80, 100] := rfl
  have e1 : ocrProgressValues 1 = [10, 30, 30, 40, 75, 80, 100] := rfl
  have e2 : ocrProgressValues 2 = [10, 30, 30, 40, 48, 75, 80, 100] := rfl
  have e3 : ocrProgressValues 3 = [10, 30, 30, 40, 48, 56, 75, 80, 100] := rfl
  have e4 : ocrProgressValues 4 = [10, 30, 30, 40, 48, 56, 64, 75, 80, 100] := rfl
  have e5 : ocrProgressValues 5 = [10, 30, 30, 40, 48, 56, 64, 72, 75, 80, 100] := rfl
  interval_cases n
  · rw [e0]; simp only [List.chain'_cons, List.chain'_singleton]; decide
  · rw [e1]; simp only [List.chain'_cons, List.chain'_singleton]; decide
  · rw [e2]; simp only [List.chain'_cons, List.chain'_singleton]; decide
  · rw [e3]; simp only [List.chain'_cons, List.chain'_singleton]; decide
  · rw [e4]; simp only [List.chain'_cons, List.chain'_singleton]; decide
  · rw [e5]; simp only [List.chain'_cons, List.chain'_singleton]; decide

/-- C9 (witness): the amended theorem applied at five player cards. -/
theorem claim9_witness :
    5 ≤ 5 ∧ List.Chain' (· ≤ ·) (ocrProgressValues 5) :=
  ⟨by decide, claim9_progress_monotone 5 (by decide)⟩

/-! ## C4 / C5 — result fusion and scoring
(`selectBestOCRResult` / `scoreOCRResult`, ocr-processor.ts 536–563) -/

/-- Errors raised by the JavaScript runtime that the embedding makes
explicit (`TypeError` from calling a method on `undefined`, or from
`Array.prototype.reduce` on an empty array). -/
inductive JSError where
  | typeError
  deriving DecidableEq

/-- The `{text, confidence}` payload of one recognition result
(`result.data` in the source; the `|| ""` / `|| 0` fallbacks of
`scoreOCRResult` make the fields total). -/
structure OCRData where
  text : List Char
  confidence : ℚ
  deriving DecidableEq

/-- One entry of the multi-pass result list: the recognition payload
together with the region tag attached by `runMultiPassOCR`. -/
structure OCRResult where
  data : OCRData
  region : List Char
  deriving DecidableEq

/-- JS `hay.includes(sub)`: `sub` occurs contiguously in `hay`. -/
def strContains : List Char → List Char → Bool
  | [], sub => sub.isEmpty
  | c :: rest, sub => sub.isPrefixOf (c :: rest) || strContains rest sub

/-- JS regex test `/\$\d+/`: a dollar sign immediately followed by a digit. -/
def hasDollarDigit : List Char → Bool
  | [] => false
  | [_] => false
  | a :: b :: rest => (a = '$' && digitChar b) || hasDollarDigit (b :: rest)

/-- The noise class of `scoreOCRResult`, the regex `[^a-zA-Z0-9\s\$\.\-]`. -/
def noiseChar (c : Char) : Bool :=
  !(alnumChar c || jsWhitespace c || c = '$' || c = '.' || c = '-')

/-- `scoreOCRResult`: confidence, plus 10 for each of the indicators
"pick", "flex", "play" (case-insensitive) and a `$<digit>` pattern,
minus 0.5 per noise character. -/
def scoreOCRResult (d : OCRData) : ℚ :=
  d.confidence
    + (if strContains (toLowerStr d.text) (("pick").toList) then 10 else 0)
    + (if strContains (toLowerStr d.text) (("flex").toList) then 10 else 0)
    + (if strContains (toLowerStr d.text) (("play").toList) then 10 else 0)
    + (if hasDollarDigit d.text then 10 else 0)
    - (d.text.countP noiseChar : ℚ) * (1 / 2)

/-- `selectBestOCRResult`: `results.reduce(...)` keeping the current best
unless the next result scores strictly higher; JS `reduce` with no initial
value raises a `TypeError` on an empty array. -/
def selectBestOCRResult (results : List OCRResult) : Except JSError OCRResult :=
  match results with
  | [] => Except.error JSError.typeError
  | a :: rest =>
      Except.ok (rest.foldl
        (fun best current =>
          if scoreOCRResult best.data < scoreOCRResult current.data then current else best)
        a)

theorem strContains_iff (hay sub : List Char) : strContains hay sub = true ↔ sub <:+: hay := by
  induction hay with
  | nil =>
    simp only [strContains, List.isEmpty_iff]
    constructor
    · rintro rfl
      exact ⟨[], [], rfl⟩
    · rintro ⟨s, t, h⟩
      have hl := congrArg List.length h
      simp only [List.length_append, List.length_nil] at hl
      exact List.length_eq_zero.mp (by omega)
  | cons c rest ih =>
    simp only [strContains, Bool.or_eq_true, List.isPrefixOf_iff_prefix, ih,
      List.infix_cons_iff]

theorem infix_concat_iff {kw m : List Char} {c : Char} (hlast : kw.getLast? ≠ some c) :
    kw <:+: m ++ [c] ↔ kw <:+: m := by
  constructor
  · rintro ⟨s, t, h⟩
    rcases List.eq_nil_or_concat t with rfl | ⟨t', c', rfl⟩
    · simp only [List.append_nil] at h
      rcases List.eq_nil_or_concat kw with rfl | ⟨kw', d, rfl⟩
      · exact ⟨[], m, by simp⟩
      · exfalso
        apply hlast
        have h2 : (s ++ (kw' ++ [d])).getLast? = some c := by
          simp only [List.concat_eq_append] at h
          rw [h]
          simp [List.getLast?_append]
        simp only [List.concat_eq_append, List.getLast?_append] at h2 ⊢
        simpa using h2
    · simp only [List.concat_eq_append] at h
      have hassoc : (s ++ (kw ++ t')) ++ [c'] = m ++ [c] := by
        simpa [List.append_assoc] using h
      obtain ⟨h5, -⟩ := List.append_inj' hassoc (by simp)
      exact ⟨s, t', by simpa [List.append_assoc] using h5⟩
  · rintro ⟨s, t, h⟩
    exact ⟨s, t ++ [c], by rw [← h]; simp⟩

/-- The reducer body of `selectBestOCRResult`, named for the proofs below. -/
def fuseStep (best current : OCRResult) : OCRResult :=
  if scoreOCRResult best.data < scoreOCRResult current.data then current else best

theorem foldl_fuse_spec (a : OCRResult) (l : List OCRResult) :
    ∃ l1 l2, a :: l = l1 ++ (l.foldl fuseStep a) :: l2 ∧
      (∀ x ∈ l1, scoreOCRResult x.data < scoreOCRResult (l.foldl fuseStep a).data) ∧
      (∀ x ∈ l2, scoreOCRResult x.data ≤ scoreOCRResult (l.foldl fuseStep a).data) := by
  induction l generalizing a with
  | nil => exact ⟨[], [], rfl, by simp, by simp⟩
  | cons x xs ih =>
    rw [List.foldl_cons]
    by_cases hx : scoreOCRResult a.data < scoreOCRResult x.data
    · rw [show fuseStep a x = x from if_pos hx]
      obtain ⟨l1, l2, heq, h1, h2⟩ := ih x
      have hxle : scoreOCRResult x.data ≤ scoreOCRResult (xs.foldl fuseStep x).data := by
        cases l1 with
        | nil =>
          have hx2 : x = xs.foldl fuseStep x := by
            simpa using congrArg (fun t => t.headD x) heq
          rw [← hx2]
        | cons z t =>
          have hz : x = z := by simpa using congrArg (fun t => t.headD x) heq
          have hlt := h1 z (by simp)
          rw [← hz] at hlt
          exact le_of_lt hlt
      refine ⟨a :: l1, l2, by rw [List.cons_append, ← heq], ?_, h2⟩
      intro y hy
      rcases List.mem_cons.mp hy with rfl | hy'
      · exact lt_of_lt_of_le hx hxle
      · exact h1 y hy'
    · rw [show fuseStep a x = a from if_neg hx]
      obtain ⟨l1, l2, heq, h1, h2⟩ := ih a
      cases l1 with
      | nil =>
        have ha : a = xs.foldl fuseStep a := by
          simpa using congrArg (fun t => t.headD a) heq
        have hxs : xs = l2 := by simpa using congrArg List.tail heq
        refine ⟨[], x :: xs, ?_, by simp, ?_⟩
        · rw [List.nil_append, ← ha]
        · intro y hy
          rcases List.mem_cons.mp hy with rfl | hy'
          · rw [← ha]
            exact not_lt.mp hx
          · exact h2 y (hxs ▸ hy')
      | cons z t =>
        have hz : a = z := by simpa using congrArg (fun t => t.headD a) heq
        have hxs : xs = t ++ (xs.foldl fuseStep a) :: l2 := by
          simpa using congrArg List.tail heq
        refine ⟨a :: x :: t, l2, ?_, ?_, h2⟩
        · conv_lhs => rw [hxs]
          rfl
        · intro y hy
          rcases List.mem_cons.mp hy with rfl | hy'
          · have hlt := h1 z (by simp)
            rw [← hz] at hlt
            exact hlt
          · rcases List.mem_cons.mp hy' with rfl | hy''
            · have hlt := h1 z (by simp)
              rw [← hz] at hlt
              exact lt_of_le_of_lt (not_lt.mp hx) hlt
            · exact h1 y (by simp [hy''])

/-- C4: for every non-empty result list, fusion returns (without raising)
a result of the list whose score is maximal; every result strictly earlier
in pass order scores strictly lower (so ties resolve to the first result
in pass order), and every later result scores no higher. -/
theorem claim4_fusion_argmax (a : OCRResult) (l : List OCRResult) :
    ∃ b l1 l2,
      selectBestOCRResult (a :: l) = Except.ok b ∧
      a :: l = l1 ++ b :: l2 ∧
      (∀ x ∈ l1, scoreOCRResult x.data < scoreOCRResult b.data) ∧
      (∀ x ∈ l2, scoreOCRResult x.data ≤ scoreOCRResult b.data) := by
  obtain ⟨l1, l2, heq, h1, h2⟩ := foldl_fuse_spec a l
  exact ⟨l.foldl fuseStep a, l1, l2, rfl, heq, h1, h2⟩

theorem hasDollarDigit_concat (l : List Char) (c : Char) (h : digitChar c = false) :
    hasDollarDigit (l ++ [c]) = hasDollarDigit l := by
  induction l with
  | nil => simp [hasDollarDigit]
  | cons a l ih =>
    cases l with
    | nil => simp [hasDollarDigit, h]
    | cons b l' =>
      simp only [List.cons_append] at ih ⊢
      simp only [hasDollarDigit, ih]

theorem strContains_concat (m kw : List Char) (c : Char) (h : kw.getLast? ≠ some c) :
    strContains (m ++ [c]) kw = strContains m kw := by
  have h1 := strContains_iff (m ++ [c]) kw
  have h2 := strContains_iff m kw
  have h3 := @infix_concat_iff kw m c h
  cases hb : strContains m kw with
  | false =>
    cases hb2 : strContains (m ++ [c]) kw with
    | false => rfl
    | true => exact absurd (h2.mpr (h3.mp (h1.mp hb2))) (by simp [hb])
  | true => rw [h1.mpr (h3.mpr (h2.mp hb))]

/-- C5: appending one noise character (outside the allowed
alphanumeric/whitespace/currency/punctuation class) to a result's text
strictly decreases its fused score, the confidence being unchanged. -/
theorem claim5_noise_decreases_score (d : OCRData) (c : Char) (h : noiseChar c = true) :
    scoreOCRResult ⟨d.text ++ [c], d.confidence⟩ < scoreOCRResult d := by
  have hprops := h
  simp only [noiseChar, Bool.not_eq_true', Bool.or_eq_false_iff] at hprops
  obtain ⟨⟨⟨⟨halnum, hws⟩, hd1⟩, hd2⟩, hd3⟩ := hprops
  have hcomp := halnum
  simp only [alnumChar, Bool.or_eq_false_iff] at hcomp
  obtain ⟨⟨hlower, hupper⟩, hdigit⟩ := hcomp
  have hlc : toLowerChar c = c := by simp [toLowerChar, hupper]
  have hpick : (("pick").toList).getLast? ≠ some c := by
    intro hcon
    have hck : c = 'k' := by
      have he : (("pick").toList).getLast? = some 'k' := rfl
      rw [he] at hcon
      exact (Option.some_injective _ hcon).symm
    rw [hck] at hlower
    exact absurd hlower (by decide)
  have hflex : (("flex").toList).getLast? ≠ some c := by
    intro hcon
    have hck : c = 'x' := by
      have he : (("flex").toList).getLast? = some 'x' := rfl
      rw [he] at hcon
      exact (Option.some_injective _ hcon).symm
    rw [hck] at hlower
    exact absurd hlower (by decide)
  have hplay : (("play").toList).getLast? ≠ some c := by
    intro hcon
    have hck : c = 'y' := by
      have he : (("play").toList).getLast? = some 'y' := rfl
      rw [he] at hcon
      exact (Option.some_injective _ hcon).symm
    rw [hck] at hlower
    exact absurd hlower (by decide)
  have htl : toLowerStr (d.text ++ [c]) = toLowerStr d.text ++ [c] := by
    simp [toLowerStr, hlc]
  have hc1 : List.countP noiseChar [c] = 1 := by
    simp [List.countP_cons, h]
  simp only [scoreOCRResult]
  rw [htl, strContains_concat _ _ _ hpick, strContains_concat _ _ _ hflex,
    strContains_concat _ _ _ hplay, hasDollarDigit_concat _ _ hdigit,
    List.countP_append, hc1]
  push_cast
  linarith

/-- C5 (witness): the noise character `#` appended to a concrete result
text strictly lowers its score. -/
theorem claim5_witness :
    noiseChar '#' = true ∧
      scoreOCRResult ⟨(("pick $5").toList) ++ ['#'], 50⟩ <
        scoreOCRResult ⟨("pick $5").toList, 50⟩ :=
  ⟨by decide, claim5_noise_decreases_score ⟨("pick $5").toList, 50⟩ '#' (by decide)⟩

/-! ## C2 — text normalizer (`cleanOCRText`, ocr-processor.ts 565–578)

`cleanOCRText` chains five JS `String.replace` calls:
separator strip `[|\\/_~] → " "`, the three single-character misread
corrections `[0O](?=[a-z]) → o`, `[1Il](?=[a-z]) → l`, `[5S](?=[a-z]) → s`,
whitespace collapse `\s+ → " "`, and a final `trim`.  Each correction
regex matches one character and looks one character ahead, so a single
left-to-right pass deciding each position from the original next
character models one `replace` call exactly. -/

/-- The separator class `[|\\/_~]` of the artifact-stripping replace. -/
def sepChar (c : Char) : Bool :=
  c = '|' || c = '\\' || c = '/' || c = '_' || c = '~'

/-- The class `[0O]` of the first misread correction. -/
def is0O (c : Char) : Bool := c = '0' || c = 'O'

/-- The class `[1Il]` of the second misread correction. -/
def is1Il (c : Char) : Bool := c = '1' || c = 'I' || c = 'l'

/-- The class `[5S]` of the third misread correction. -/
def is5S (c : Char) : Bool := c = '5' || c = 'S'

/-- `text.replace(/[|\\/_~]/g, " ")`. -/
def stripSep (l : List Char) : List Char :=
  l.map (fun c => if sepChar c then ' ' else c)

/-- One misread-correction replace `cls(?=[a-z]) → r`: each character in
the class followed by an original lower-case letter becomes `r`. -/
def fixRule (cls : Char → Bool) (r : Char) : List Char → List Char
  | [] => []
  | [c] => [c]
  | c :: d :: rest => (if cls c && lowerAlpha d then r else c) :: fixRule cls r (d :: rest)

/-- `text.replace(/\s+/g, " ")`: every maximal whitespace run becomes one
space. -/
def collapseSpaces : List Char → List Char
  | [] => []
  | [c] => if jsWhitespace c then [' '] else [c]
  | c :: d :: rest =>
      if jsWhitespace c then
        (if jsWhitespace d then collapseSpaces (d :: rest)
         else ' ' :: collapseSpaces (d :: rest))
      else c :: collapseSpaces (d :: rest)

/-- `text.trim()`: drop whitespace from both ends. -/
def trimEnds (l : List Char) : List Char :=
  ((l.dropWhile jsWhitespace).reverse.dropWhile jsWhitespace).reverse

/-- `cleanOCRText`, the five replaces chained in source order. -/
def cleanOCRText (l : List Char) : List Char :=
  trimEnds (collapseSpaces (fixRule is5S 's' (fixRule is1Il 'l'
    (fixRule is0O 'o' (stripSep l)))))

/-- C2 (counterexample): the normalizer is not idempotent.  On `"I1a"` the
first pass turns `1` into `l` (it precedes the lower-case `a`), producing
`"Ila"`; only the second pass can then turn `I` into `l` (it now precedes
the lower-case `l`), producing `"lla"`. -/
theorem claim2_counterexample :
    cleanOCRText (cleanOCRText (("I1a").toList)) ≠ cleanOCRText (("I1a").toList) := by
  decide

/-- All adjacent pairs of the list satisfy the Boolean relation `P`. -/
def pairwiseAdj (P : Char → Char → Bool) : List Char → Bool
  | [] => true
  | [_] => true
  | a :: b :: rest => P a b && pairwiseAdj P (b :: rest)

/-- The six-character misread class `{0, O, 1, I, 5, S}` whose members the
correction passes may rewrite to a lower-case letter. -/
def misreadChar (c : Char) : Bool :=
  c = '0' || c = 'O' || c = '1' || c = 'I' || c = '5' || c = 'S'

/-- No two adjacent characters of the string both lie in the misread
class; the hypothesis of the amended idempotence claim. -/
def noAdjacentMisreads (l : List Char) : Bool :=
  pairwiseAdj (fun a b => !(misreadChar a && misreadChar b)) l

theorem pairwiseAdj_imp {P Q : Char → Char → Bool}
    (hpq : ∀ a b, P a b = true → Q a b = true) :
    ∀ l, pairwiseAdj P l = true → pairwiseAdj Q l = true := by
  intro l
  induction l using pairwiseAdj.induct (P := P) with
  | case1 => simp [pairwiseAdj]
  | case2 c => simp [pairwiseAdj]
  | case3 a b rest ih =>
    simp only [pairwiseAdj, Bool.and_eq_true]
    rintro ⟨h1, h2⟩
    exact ⟨hpq _ _ h1, ih h2⟩

theorem pairwiseAdj_and {P Q : Char → Char → Bool} :
    ∀ l, pairwiseAdj P l = true → pairwiseAdj Q l = true →
      pairwiseAdj (fun a b => P a b && Q a b) l = true := by
  intro l
  induction l using pairwiseAdj.induct (P := P) with
  | case1 => simp [pairwiseAdj]
  | case2 c => simp [pairwiseAdj]
  | case3 a b rest ih =>
    simp only [pairwiseAdj, Bool.and_eq_true]
    rintro ⟨h1, h2⟩ ⟨h3, h4⟩
    exact ⟨⟨h1, h3⟩, ih h2 h4⟩

theorem pairwiseAdj_map {P Q : Char → Char → Bool} (f : Char → Char)
    (hf : ∀ a b, P a b = true → Q (f a) (f b) = true) :
    ∀ l, pairwiseAdj P l = true → pairwiseAdj Q (l.map f) = true := by
  intro l
  induction l using pairwiseAdj.induct (P := P) with
  | case1 => simp [pairwiseAdj]
  | case2 c => simp [pairwiseAdj]
  | case3 a b rest ih =>
    simp only [pairwiseAdj, Bool.and_eq_true, List.map_cons]
    rintro ⟨h1, h2⟩
    have := ih h2
    simp only [List.map_cons] at this
    exact ⟨hf _ _ h1, this⟩

theorem pairwiseAdj_append_right {Q : Char → Char → Bool} :
    ∀ l₁ l₂, pairwiseAdj Q (l₁ ++ l₂) = true → pairwiseAdj Q l₂ = true := by
  intro l₁
  induction l₁ with
  | nil => simp
  | cons a l₁ ih =>
    intro l₂ h
    apply ih
    rw [List.cons_append] at h
    cases hl : l₁ ++ l₂ with
    | nil => rfl
    | cons b rest =>
      rw [hl] at h
      simp only [pairwiseAdj, Bool.and_eq_true] at h
      exact h.2

theorem pairwiseAdj_append_left {Q : Char → Char → Bool} :
    ∀ l₁ l₂, pairwiseAdj Q (l₁ ++ l₂) = true → pairwiseAdj Q l₁ = true := by
  intro l₁
  induction l₁ with
  | nil => intro _ _; rfl
  | cons a l₁ ih =>
    intro l₂ h
    cases hl : l₁ with
    | nil => rfl
    | cons b rest =>
      subst hl
      rw [List.cons_append, List.cons_append] at h
      simp only [pairwiseAdj, Bool.and_eq_true] at h ⊢
      refine ⟨h.1, ?_⟩
      have := ih l₂ (by rw [List.cons_append]; exact h.2)
      exact this

/-- No misread character directly before a misread character (the
hypothesis relation of the amended claim). -/
def adjPM (a b : Char) : Bool := !(misreadChar a && misreadChar b)

/-- No `[0O]` character directly before a lower-case letter. -/
def adjNo0O (a b : Char) : Bool := !(is0O a && lowerAlpha b)

/-- No `1`/`I` directly before a lower-case letter (an `l` is allowed,
its correction is the identity). -/
def adjNo1I (a b : Char) : Bool := !((a = '1' || a = 'I') && lowerAlpha b)

/-- No `[5S]` character directly before a lower-case letter. -/
def adjNo5S (a b : Char) : Bool := !(is5S a && lowerAlpha b)

/-- No misread character directly before a lower-case letter: on such a
string every correction pass is the identity. -/
def adjNoMisLower (a b : Char) : Bool := !(misreadChar a && lowerAlpha b)

/-- No two adjacent whitespace characters. -/
def adjNoWsPair (a b : Char) : Bool := !(jsWhitespace a && jsWhitespace b)

theorem mis_of_is0O (c : Char) (h : is0O c = true) : misreadChar c = true := by
  simp only [is0O, Bool.or_eq_true, decide_eq_true_eq] at h
  rcases h with rfl | rfl <;> decide

theorem mis_of_is5S (c : Char) (h : is5S c = true) : misreadChar c = true := by
  simp only [is5S, Bool.or_eq_true, decide_eq_true_eq] at h
  rcases h with rfl | rfl <;> decide

theorem mis_of_1I (c : Char) (h : (c = '1' || c = 'I') = true) : misreadChar c = true := by
  simp only [Bool.or_eq_true, decide_eq_true_eq] at h
  rcases h with rfl | rfl <;> decide

theorem pairwiseAdj_cons_cons {Q : Char → Char → Bool} {a b : Char} {rest : List Char} :
    pairwiseAdj Q (a :: b :: rest) = true ↔
      Q a b = true ∧ pairwiseAdj Q (b :: rest) = true := by
  simp [pairwiseAdj, Bool.and_eq_true]

theorem fixRule_shape (cls : Char → Bool) (r b : Char) (rest : List Char) :
    ∃ tl, fixRule cls r (b :: rest) = b :: tl ∨
      (fixRule cls r (b :: rest) = r :: tl ∧ cls b = true) := by
  cases rest with
  | nil => exact ⟨[], Or.inl rfl⟩
  | cons e rest' =>
    refine ⟨fixRule cls r (e :: rest'), ?_⟩
    by_cases hc : (cls b && lowerAlpha e) = true
    · refine Or.inr ⟨?_, (Bool.and_eq_true _ _ |>.mp hc).1⟩
      show (if cls b && lowerAlpha e then r else b) :: _ = _
      rw [if_pos hc]
    · refine Or.inl ?_
      show (if cls b && lowerAlpha e then r else b) :: _ = _
      rw [if_neg hc]

theorem fixRule_pairwise (cls : Char → Bool) (r : Char) (H G : Char → Char → Bool)
    (hC1 : ∀ a b, H a b = true →
      G (if cls a && lowerAlpha b then r else a) b = true)
    (hC2 : ∀ a b, H a b = true → cls b = true →
      G (if cls a && lowerAlpha b then r else a) r = true) :
    ∀ l, pairwiseAdj H l = true → pairwiseAdj G (fixRule cls r l) = true := by
  intro l
  induction l using pairwiseAdj.induct (P := H) with
  | case1 => intro _; rfl
  | case2 c => intro _; rfl
  | case3 a b rest ih =>
    intro h
    obtain ⟨hab, htail⟩ := pairwiseAdj_cons_cons.mp h
    have hout := ih htail
    obtain ⟨tl, hshape⟩ := fixRule_shape cls r b rest
    show pairwiseAdj G
      ((if cls a && lowerAlpha b then r else a) :: fixRule cls r (b :: rest)) = true
    rcases hshape with heq | ⟨heq, hclsb⟩
    · rw [heq] at hout ⊢
      exact pairwiseAdj_cons_cons.mpr ⟨hC1 a b hab, hout⟩
    · rw [heq] at hout ⊢
      exact pairwiseAdj_cons_cons.mpr ⟨hC2 a b hab hclsb, hout⟩

theorem fixRule_eq_self (cls : Char → Bool) (r : Char) :
    ∀ l, pairwiseAdj (fun a b => !(cls a && lowerAlpha b) || (a == r)) l = true →
      fixRule cls r l = l := by
  intro l
  induction l using pairwiseAdj.induct
      (P := fun a b => !(cls a && lowerAlpha b) || (a == r)) with
  | case1 => intro _; rfl
  | case2 c => intro _; rfl
  | case3 a b rest ih =>
    intro h
    obtain ⟨hab, htail⟩ := pairwiseAdj_cons_cons.mp h
    show (if cls a && lowerAlpha b then r else a) :: fixRule cls r (b :: rest) =
      a :: b :: rest
    rw [ih htail]
    rcases (Bool.or_eq_true _ _).mp hab with hno | heq
    · cases hX : (cls a && lowerAlpha b) with
      | true => rw [hX] at hno; exact absurd hno (by decide)
      | false => rw [if_neg (by simp [hX])]
    · have ha : a = r := by simpa using heq
      rw [ha, ite_self]

theorem fixRule_mem (cls : Char → Bool) (r : Char) :
    ∀ l c, c ∈ fixRule cls r l → c ∈ l ∨ c = r := by
  intro l
  induction l using pairwiseAdj.induct (P := fun _ _ => true) with
  | case1 => intro c hc; exact absurd hc (by simp [fixRule])
  | case2 d => intro c hc; simp only [fixRule] at hc; exact Or.inl hc
  | case3 a b rest ih =>
    intro c hc
    have hc2 : c ∈ (if cls a && lowerAlpha b then r else a) :: fixRule cls r (b :: rest) := hc
    rcases List.mem_cons.mp hc2 with rfl | hmem
    · split
      · exact Or.inr rfl
      · exact Or.inl (by simp)
    · rcases ih c hmem with hin | hr
      · exact Or.inl (List.mem_cons_of_mem a hin)
      · exact Or.inr hr

theorem collapse_shape (rest : List Char) :
    ∀ d, ∃ tl, collapseSpaces (d :: rest) = (if jsWhitespace d then ' ' else d) :: tl := by
  induction rest with
  | nil =>
    intro d
    by_cases h : jsWhitespace d = true
    · exact ⟨[], by simp [collapseSpaces, h]⟩
    · exact ⟨[], by simp [collapseSpaces, h]⟩
  | cons e rest' ih =>
    intro d
    by_cases hd : jsWhitespace d = true
    · by_cases he : jsWhitespace e = true
      · obtain ⟨tl, htl⟩ := ih e
        rw [if_pos he] at htl
        refine ⟨tl, ?_⟩
        rw [if_pos hd, show collapseSpaces (d :: e :: rest') = collapseSpaces (e :: rest')
          from by simp [collapseSpaces, hd, he]]
        exact htl
      · refine ⟨collapseSpaces (e :: rest'), ?_⟩
        rw [if_pos hd]
        simp [collapseSpaces, hd, he]
    · refine ⟨collapseSpaces (e :: rest'), ?_⟩
      rw [if_neg hd]
      simp [collapseSpaces, hd]

theorem collapse_pairwise {Q : Char → Char → Bool}
    (hQ1 : ∀ a, Q a ' ' = true) (hQ2 : ∀ b, Q ' ' b = true) :
    ∀ l, pairwiseAdj Q l = true → pairwiseAdj Q (collapseSpaces l) = true := by
  intro l
  induction l using collapseSpaces.induct with
  | case1 => intro _; rfl
  | case2 c hws => intro _; rw [show collapseSpaces [c] = [' '] from by simp [collapseSpaces, hws]]; rfl
  | case3 c hws => intro _; rw [show collapseSpaces [c] = [c] from by simp [collapseSpaces, hws]]; rfl
  | case4 c d rest h1 h2 ih =>
    intro hp
    rw [show collapseSpaces (c :: d :: rest) = collapseSpaces (d :: rest) from by
      simp [collapseSpaces, h1, h2]]
    exact ih (pairwiseAdj_cons_cons.mp hp).2
  | case5 c d rest h1 h2 ih =>
    intro hp
    rw [show collapseSpaces (c :: d :: rest) = ' ' :: collapseSpaces (d :: rest) from by
      simp [collapseSpaces, h1, h2]]
    obtain ⟨tl, htl⟩ := collapse_shape rest d
    rw [if_neg h2] at htl
    have hout := ih (pairwiseAdj_cons_cons.mp hp).2
    rw [htl] at hout ⊢
    exact pairwiseAdj_cons_cons.mpr ⟨hQ2 d, hout⟩
  | case6 c d rest h1 ih =>
    intro hp
    rw [show collapseSpaces (c :: d :: rest) = c :: collapseSpaces (d :: rest) from by
      simp [collapseSpaces, h1]]
    obtain ⟨tl, htl⟩ := collapse_shape rest d
    have hout := ih (pairwiseAdj_cons_cons.mp hp).2
    rw [htl] at hout ⊢
    refine pairwiseAdj_cons_cons.mpr ⟨?_, hout⟩
    by_cases hd : jsWhitespace d = true
    · rw [if_pos hd]
      exact hQ1 c
    · rw [if_neg hd]
      exact (pairwiseAdj_cons_cons.mp hp).1

theorem collapse_ws_space :
    ∀ l c, c ∈ collapseSpaces l → jsWhitespace c = true → c = ' ' := by
  intro l
  induction l using collapseSpaces.induct with
  | case1 => intro c hc; exact absurd hc (by simp [collapseSpaces])
  | case2 d hws =>
    intro c hc hwc
    rw [show collapseSpaces [d] = [' '] from by simp [collapseSpaces, hws]] at hc
    simpa using hc
  | case3 d hws =>
    intro c hc hwc
    rw [show collapseSpaces [d] = [d] from by simp [collapseSpaces, hws]] at hc
    have : c = d := by simpa using hc
    subst this
    exact absurd hwc hws
  | case4 a d rest h1 h2 ih =>
    intro c hc hwc
    rw [show collapseSpaces (a :: d :: rest) = collapseSpaces (d :: rest) from by
      simp [collapseSpaces, h1, h2]] at hc
    exact ih c hc hwc
  | case5 a d rest h1 h2 ih =>
    intro c hc hwc
    rw [show collapseSpaces (a :: d :: rest) = ' ' :: collapseSpaces (d :: rest) from by
      simp [collapseSpaces, h1, h2]] at hc
    rcases List.mem_cons.mp hc with rfl | hmem
    · rfl
    · exact ih c hmem hwc
  | case6 a d rest h1 ih =>
    intro c hc hwc
    rw [show collapseSpaces (a :: d :: rest) = a :: collapseSpaces (d :: rest) from by
      simp [collapseSpaces, h1]] at hc
    rcases List.mem_cons.mp hc with rfl | hmem
    · exact absurd hwc h1
    · exact ih c hmem hwc

theorem collapse_noAdjWs :
    ∀ l, pairwiseAdj adjNoWsPair (collapseSpaces l) = true := by
  intro l
  induction l using collapseSpaces.induct with
  | case1 => rfl
  | case2 c hws => rw [show collapseSpaces [c] = [' '] from by simp [collapseSpaces, hws]]; rfl
  | case3 c hws => rw [show collapseSpaces [c] = [c] from by simp [collapseSpaces, hws]]; rfl
  | case4 c d rest h1 h2 ih =>
    rw [show collapseSpaces (c :: d :: rest) = collapseSpaces (d :: rest) from by
      simp [collapseSpaces, h1, h2]]
    exact ih
  | case5 c d rest h1 h2 ih =>
    rw [show collapseSpaces (c :: d :: rest) = ' ' :: collapseSpaces (d :: rest) from by
      simp [collapseSpaces, h1, h2]]
    obtain ⟨tl, htl⟩ := collapse_shape rest d
    rw [if_neg h2] at htl
    rw [htl] at ih ⊢
    exact pairwiseAdj_cons_cons.mpr ⟨by simp [adjNoWsPair, h2], ih⟩
  | case6 c d rest h1 ih =>
    rw [show collapseSpaces (c :: d :: rest) = c :: collapseSpaces (d :: rest) from by
      simp [collapseSpaces, h1]]
    obtain ⟨tl, htl⟩ := collapse_shape rest d
    rw [htl] at ih ⊢
    exact pairwiseAdj_cons_cons.mpr ⟨by simp [adjNoWsPair, h1], ih⟩

theorem collapse_mem :
    ∀ l c, c ∈ collapseSpaces l → c ∈ l ∨ c = ' ' := by
  intro l
  induction l using collapseSpaces.induct with
  | case1 => intro c hc; exact absurd hc (by simp [collapseSpaces])
  | case2 d hws =>
    intro c hc
    rw [show collapseSpaces [d] = [' '] from by simp [collapseSpaces, hws]] at hc
    exact Or.inr (by simpa using hc)
  | case3 d hws =>
    intro c hc
    rw [show collapseSpaces [d] = [d] from by simp [collapseSpaces, hws]] at hc
    exact Or.inl hc
  | case4 a d rest h1 h2 ih =>
    intro c hc
    rw [show collapseSpaces (a :: d :: rest) = collapseSpaces (d :: rest) from by
      simp [collapseSpaces, h1, h2]] at hc
    rcases ih c hc with hm | hsp
    · exact Or.inl (List.mem_cons_of_mem a hm)
    · exact Or.inr hsp
  | case5 a d rest h1 h2 ih =>
    intro c hc
    rw [show collapseSpaces (a :: d :: rest) = ' ' :: collapseSpaces (d :: rest) from by
      simp [collapseSpaces, h1, h2]] at hc
    rcases List.mem_cons.mp hc with rfl | hmem
    · exact Or.inr rfl
    · rcases ih c hmem with hm | hsp
      · exact Or.inl (List.mem_cons_of_mem a hm)
      · exact Or.inr hsp
  | case6 a d rest h1 ih =>
    intro c hc
    rw [show collapseSpaces (a :: d :: rest) = a :: collapseSpaces (d :: rest) from by
      simp [collapseSpaces, h1]] at hc
    rcases List.mem_cons.mp hc with rfl | hmem
    · exact Or.inl (by simp)
    · rcases ih c hmem with hm | hsp
      · exact Or.inl (List.mem_cons_of_mem a hm)
      · exact Or.inr hsp

theorem collapse_eq_self :
    ∀ l, (∀ c ∈ l, jsWhitespace c = true → c = ' ') →
      pairwiseAdj adjNoWsPair l = true → collapseSpaces l = l := by
  intro l
  induction l using collapseSpaces.induct with
  | case1 => intro _ _; rfl
  | case2 c hws =>
    intro hall _
    have : c = ' ' := hall c (by simp) hws
    subst this
    simp [collapseSpaces]
  | case3 c hws =>
    intro _ _
    simp [collapseSpaces, hws]
  | case4 c d rest h1 h2 ih =>
    intro hall hadj
    exfalso
    have := (pairwiseAdj_cons_cons.mp hadj).1
    simp [adjNoWsPair, h1, h2] at this
  | case5 c d rest h1 h2 ih =>
    intro hall hadj
    have hc : c = ' ' := hall c (by simp) h1
    subst hc
    rw [show collapseSpaces (' ' :: d :: rest) = ' ' :: collapseSpaces (d :: rest) from by
      simp [collapseSpaces, h1, h2]]
    rw [ih (fun x hx => hall x (List.mem_cons_of_mem _ hx))
      (pairwiseAdj_cons_cons.mp hadj).2]
  | case6 c d rest h1 ih =>
    intro hall hadj
    rw [show collapseSpaces (c :: d :: rest) = c :: collapseSpaces (d :: rest) from by
      simp [collapseSpaces, h1]]
    rw [ih (fun x hx => hall x (List.mem_cons_of_mem _ hx))
      (pairwiseAdj_cons_cons.mp hadj).2]

theorem head_dropWhile_not (p : Char → Bool) :
    ∀ l a, (List.dropWhile p l).head? = some a → p a = false := by
  intro l
  induction l with
  | nil => intro a ha; simp at ha
  | cons x xs ih =>
    intro a ha
    by_cases hx : p x = true
    · rw [show List.dropWhile p (x :: xs) = List.dropWhile p xs from by
        simp [List.dropWhile, hx]] at ha
      exact ih a ha
    · rw [show List.dropWhile p (x :: xs) = x :: xs from by
        cases hpx : p x with
        | true => exact absurd hpx hx
        | false => simp [List.dropWhile, hpx]] at ha
      have hax : a = x := by simpa using ha.symm
      subst hax
      simpa using hx

theorem dropWhile_id_of (p : Char → Bool) (l : List Char)
    (h : ∀ a, l.head? = some a → p a = false) : List.dropWhile p l = l := by
  cases l with
  | nil => rfl
  | cons x xs =>
    have hx := h x rfl
    simp [List.dropWhile, hx]

theorem trimEnds_decomp (l : List Char) :
    ∃ w, List.dropWhile jsWhitespace l = trimEnds l ++ w := by
  obtain ⟨w, hw⟩ :=
    List.dropWhile_suffix (l := (List.dropWhile jsWhitespace l).reverse) jsWhitespace
  refine ⟨w.reverse, ?_⟩
  have hrev := congrArg List.reverse hw
  simp only [List.reverse_append, List.reverse_reverse] at hrev
  exact hrev.symm

theorem trimEnds_pairwise {Q : Char → Char → Bool} (l : List Char)
    (h : pairwiseAdj Q l = true) : pairwiseAdj Q (trimEnds l) = true := by
  obtain ⟨w, hw⟩ := trimEnds_decomp l
  obtain ⟨w2, hw2⟩ := List.dropWhile_suffix (l := l) jsWhitespace
  have h1 : pairwiseAdj Q (List.dropWhile jsWhitespace l) = true :=
    pairwiseAdj_append_right w2 _ (by rw [hw2]; exact h)
  rw [hw] at h1
  exact pairwiseAdj_append_left _ w h1

theorem trimEnds_mem (l : List Char) (c : Char) (h : c ∈ trimEnds l) : c ∈ l := by
  obtain ⟨w, hw⟩ := trimEnds_decomp l
  obtain ⟨w2, hw2⟩ := List.dropWhile_suffix (l := l) jsWhitespace
  rw [← hw2, hw]
  exact List.mem_append_right _ (List.mem_append_left _ h)

theorem trimEnds_trimEnds (l : List Char) : trimEnds (trimEnds l) = trimEnds l := by
  have hstep1 : List.dropWhile jsWhitespace (trimEnds l) = trimEnds l := by
    apply dropWhile_id_of
    intro a ha
    rw [show trimEnds l =
      ((l.dropWhile jsWhitespace).reverse.dropWhile jsWhitespace).reverse from rfl,
      List.head?_reverse] at ha
    obtain ⟨w, hw⟩ :=
      List.dropWhile_suffix (l := (List.dropWhile jsWhitespace l).reverse) jsWhitespace
    have hval : ((List.dropWhile jsWhitespace l).reverse).getLast? = some a := by
      rw [← hw, List.getLast?_append, ha]
      rfl
    rw [List.getLast?_reverse] at hval
    exact head_dropWhile_not jsWhitespace l a hval
  have hstep2 :
      List.dropWhile jsWhitespace (trimEnds l).reverse = (trimEnds l).reverse := by
    rw [show trimEnds l =
      ((l.dropWhile jsWhitespace).reverse.dropWhile jsWhitespace).reverse from rfl,
      List.reverse_reverse]
    apply dropWhile_id_of
    intro a ha
    exact head_dropWhile_not jsWhitespace (l.dropWhile jsWhitespace).reverse a ha
  show ((List.dropWhile jsWhitespace (trimEnds l)).reverse.dropWhile jsWhitespace).reverse
      = trimEnds l
  rw [hstep1, hstep2, List.reverse_reverse]

theorem stripSep_no_sep : ∀ l c, c ∈ stripSep l → sepChar c = false := by
  intro l c hc
  rcases List.mem_map.mp hc with ⟨x, hx, rfl⟩
  by_cases hb : sepChar x = true
  · rw [if_pos hb]; decide
  · rw [if_neg hb]
    cases hbx : sepChar x with
    | true => exact absurd hbx hb
    | false => rfl

theorem stripSep_eq_self (l : List Char) (h : ∀ c ∈ l, sepChar c = false) :
    stripSep l = l := by
  induction l with
  | nil => rfl
  | cons a t ih =>
    simp only [stripSep, List.map_cons]
    rw [if_neg (by simp [h a (by simp)])]
    have ht := ih (fun c hc => h c (List.mem_cons_of_mem a hc))
    simp only [stripSep] at ht
    rw [ht]

theorem fix0O_stage (l : List Char) (hPM : pairwiseAdj adjPM l = true) :
    pairwiseAdj adjPM (fixRule is0O 'o' l) = true ∧
      pairwiseAdj adjNo0O (fixRule is0O 'o' l) = true := by
  have hmo : misreadChar 'o' = false := by decide
  constructor
  · apply fixRule_pairwise is0O 'o' adjPM adjPM ?_ ?_ l hPM
    · intro a b hab
      by_cases hc : (is0O a && lowerAlpha b) = true
      · rw [if_pos hc]; simp [adjPM, hmo]
      · rw [if_neg hc]; exact hab
    · intro a b hab hb
      by_cases hc : (is0O a && lowerAlpha b) = true
      · rw [if_pos hc]; simp [adjPM, hmo]
      · rw [if_neg hc]; simp [adjPM, hmo]
  · apply fixRule_pairwise is0O 'o' adjPM adjNo0O ?_ ?_ l hPM
    · intro a b hab
      by_cases hc : (is0O a && lowerAlpha b) = true
      · rw [if_pos hc]; simp [adjNo0O, (by decide : is0O 'o' = false)]
      · rw [if_neg hc]
        cases hX : (is0O a && lowerAlpha b) with
        | true => exact absurd hX hc
        | false => simp [adjNo0O, hX]
    · intro a b hab hb
      by_cases hc : (is0O a && lowerAlpha b) = true
      · rw [if_pos hc]; decide
      · rw [if_neg hc]
        cases ha : is0O a with
        | false => simp [adjNo0O, ha]
        | true =>
          exfalso
          have hma := mis_of_is0O a ha
          have hmb := mis_of_is0O b hb
          simp [adjPM, hma, hmb] at hab

theorem fix1Il_stage (l : List Char) (hPM : pairwiseAdj adjPM l = true)
    (hA2 : pairwiseAdj adjNo0O l = true) :
    pairwiseAdj adjPM (fixRule is1Il 'l' l) = true ∧
      pairwiseAdj adjNo0O (fixRule is1Il 'l' l) = true ∧
      pairwiseAdj adjNo1I (fixRule is1Il 'l' l) = true := by
  have hml : misreadChar 'l' = false := by decide
  have hH := pairwiseAdj_and l hPM hA2
  refine ⟨?_, ?_, ?_⟩
  · apply fixRule_pairwise is1Il 'l' _ adjPM ?_ ?_ l hH
    · intro a b hab
      obtain ⟨hPMab, -⟩ := (Bool.and_eq_true _ _).mp hab
      by_cases hc : (is1Il a && lowerAlpha b) = true
      · rw [if_pos hc]; simp [adjPM, hml]
      · rw [if_neg hc]; exact hPMab
    · intro a b hab hb
      by_cases hc : (is1Il a && lowerAlpha b) = true
      · rw [if_pos hc]; simp [adjPM, hml]
      · rw [if_neg hc]; simp [adjPM, hml]
  · apply fixRule_pairwise is1Il 'l' _ adjNo0O ?_ ?_ l hH
    · intro a b hab
      obtain ⟨-, hA2ab⟩ := (Bool.and_eq_true _ _).mp hab
      by_cases hc : (is1Il a && lowerAlpha b) = true
      · rw [if_pos hc]; simp [adjNo0O, (by decide : is0O 'l' = false)]
      · rw [if_neg hc]; exact hA2ab
    · intro a b hab hb
      obtain ⟨hPMab, hA2ab⟩ := (Bool.and_eq_true _ _).mp hab
      by_cases hc : (is1Il a && lowerAlpha b) = true
      · rw [if_pos hc]; decide
      · rw [if_neg hc]
        cases ha : is0O a with
        | false => simp [adjNo0O, ha]
        | true =>
          exfalso
          simp only [is1Il, Bool.or_eq_true, decide_eq_true_eq] at hb
          rcases hb with (rfl | rfl) | rfl
          · have hma := mis_of_is0O a ha
            simp [adjPM, hma, (by decide : misreadChar '1' = true)] at hPMab
          · have hma := mis_of_is0O a ha
            simp [adjPM, hma, (by decide : misreadChar 'I' = true)] at hPMab
          · simp [adjNo0O, ha, (by decide : lowerAlpha 'l' = true)] at hA2ab
  · apply fixRule_pairwise is1Il 'l' _ adjNo1I ?_ ?_ l hH
    · intro a b hab
      by_cases hc : (is1Il a && lowerAlpha b) = true
      · rw [if_pos hc]; simp [adjNo1I]
      · rw [if_neg hc]
        cases hX : (a = '1' || a = 'I') && lowerAlpha b with
        | false => simp [adjNo1I, hX]
        | true =>
          exfalso
          apply hc
          obtain ⟨h1, h2⟩ := (Bool.and_eq_true _ _).mp hX
          have h1l : is1Il a = true := by
            simp only [Bool.or_eq_true, decide_eq_true_eq] at h1
            rcases h1 with rfl | rfl <;> decide
          simp [h1l, h2]
    · intro a b hab hb
      obtain ⟨hPMab, hA2ab⟩ := (Bool.and_eq_true _ _).mp hab
      by_cases hc : (is1Il a && lowerAlpha b) = true
      · rw [if_pos hc]; simp [adjNo1I]
      · rw [if_neg hc]
        cases hX : (a = '1' || a = 'I') with
        | false => simp [adjNo1I, hX]
        | true =>
          exfalso
          have h1l : is1Il a = true := by
            simp only [Bool.or_eq_true, decide_eq_true_eq] at hX
            rcases hX with rfl | rfl <;> decide
          have hma : misreadChar a = true := by
            simp only [Bool.or_eq_true, decide_eq_true_eq] at hX
            rcases hX with rfl | rfl <;> decide
          simp only [is1Il, Bool.or_eq_true, decide_eq_true_eq] at hb
          rcases hb with (rfl | rfl) | rfl
          · simp [adjPM, hma, (by decide : misreadChar '1' = true)] at hPMab
          · simp [adjPM, hma, (by decide : misreadChar 'I' = true)] at hPMab
          · apply hc
            simp [h1l, (by decide : lowerAlpha 'l' = true)]

theorem fix5S_stage (l : List Char) (hPM : pairwiseAdj adjPM l = true)
    (hA2 : pairwiseAdj adjNo0O l = true) (hA3 : pairwiseAdj adjNo1I l = true) :
    pairwiseAdj adjNo0O (fixRule is5S 's' l) = true ∧
      pairwiseAdj adjNo1I (fixRule is5S 's' l) = true ∧
      pairwiseAdj adjNo5S (fixRule is5S 's' l) = true := by
  have hH := pairwiseAdj_and l (pairwiseAdj_and l hPM hA2) hA3
  refine ⟨?_, ?_, ?_⟩
  · apply fixRule_pairwise is5S 's' _ adjNo0O ?_ ?_ l hH
    · intro a b hab
      obtain ⟨h12, -⟩ := (Bool.and_eq_true _ _).mp hab
      obtain ⟨-, hA2ab⟩ := (Bool.and_eq_true _ _).mp h12
      by_cases hc : (is5S a && lowerAlpha b) = true
      · rw [if_pos hc]; simp [adjNo0O, (by decide : is0O 's' = false)]
      · rw [if_neg hc]; exact hA2ab
    · intro a b hab hb
      obtain ⟨h12, -⟩ := (Bool.and_eq_true _ _).mp hab
      obtain ⟨hPMab, -⟩ := (Bool.and_eq_true _ _).mp h12
      by_cases hc : (is5S a && lowerAlpha b) = true
      · rw [if_pos hc]; decide
      · rw [if_neg hc]
        cases ha : is0O a with
        | false => simp [adjNo0O, ha]
        | true =>
          exfalso
          have hma := mis_of_is0O a ha
          have hmb := mis_of_is5S b hb
          simp [adjPM, hma, hmb] at hPMab
  · apply fixRule_pairwise is5S 's' _ adjNo1I ?_ ?_ l hH
    · intro a b hab
      obtain ⟨-, hA3ab⟩ := (Bool.and_eq_true _ _).mp hab
      by_cases hc : (is5S a && lowerAlpha b) = true
      · rw [if_pos hc]; simp [adjNo1I]
      · rw [if_neg hc]; exact hA3ab
    · intro a b hab hb
      obtain ⟨h12, -⟩ := (Bool.and_eq_true _ _).mp hab
      obtain ⟨hPMab, -⟩ := (Bool.and_eq_true _ _).mp h12
      by_cases hc : (is5S a && lowerAlpha b) = true
      · rw [if_pos hc]; simp [adjNo1I]
      · rw [if_neg hc]
        cases hX : (a = '1' || a = 'I') with
        | false => simp [adjNo1I, hX]
        | true =>
          exfalso
          have hma : misreadChar a = true := mis_of_1I a hX
          have hmb := mis_of_is5S b hb
          simp [adjPM, hma, hmb] at hPMab
  · apply fixRule_pairwise is5S 's' _ adjNo5S ?_ ?_ l hH
    · intro a b hab
      by_cases hc : (is5S a && lowerAlpha b) = true
      · rw [if_pos hc]; simp [adjNo5S, (by decide : is5S 's' = false)]
      · rw [if_neg hc]
        cases hX : (is5S a && lowerAlpha b) with
        | true => exact absurd hX hc
        | false => simp [adjNo5S, hX]
    · intro a b hab hb
      obtain ⟨h12, -⟩ := (Bool.and_eq_true _ _).mp hab
      obtain ⟨hPMab, -⟩ := (Bool.and_eq_true _ _).mp h12
      by_cases hc : (is5S a && lowerAlpha b) = true
      · rw [if_pos hc]; decide
      · rw [if_neg hc]
        cases ha : is5S a with
        | false => simp [adjNo5S, ha]
        | true =>
          exfalso
          have hma := mis_of_is5S a ha
          have hmb := mis_of_is5S b hb
          simp [adjPM, hma, hmb] at hPMab

theorem misLower_of (a b : Char) (h2 : adjNo0O a b = true) (h3 : adjNo1I a b = true)
    (h5 : adjNo5S a b = true) : adjNoMisLower a b = true := by
  cases hm : misreadChar a with
  | false => simp [adjNoMisLower, hm]
  | true =>
    have hlow : lowerAlpha b = false := by
      cases hl : lowerAlpha b with
      | false => rfl
      | true =>
        exfalso
        simp only [misreadChar, Bool.or_eq_true, decide_eq_true_eq] at hm
        rcases hm with ((((rfl | rfl) | rfl) | rfl) | rfl) | rfl
        · simp [adjNo0O, hl, (by decide : is0O '0' = true)] at h2
        · simp [adjNo0O, hl, (by decide : is0O 'O' = true)] at h2
        · simp [adjNo1I, hl] at h3
        · simp [adjNo1I, hl] at h3
        · simp [adjNo5S, hl, (by decide : is5S '5' = true)] at h5
        · simp [adjNo5S, hl, (by decide : is5S 'S' = true)] at h5
    simp [adjNoMisLower, hlow]

theorem clean_fixed (t : List Char)
    (hsep : ∀ c ∈ t, sepChar c = false)
    (hmis : pairwiseAdj adjNoMisLower t = true)
    (hws : ∀ c ∈ t, jsWhitespace c = true → c = ' ')
    (hadjws : pairwiseAdj adjNoWsPair t = true)
    (htrim : trimEnds t = t) :
    cleanOCRText t = t := by
  unfold cleanOCRText
  rw [stripSep_eq_self t hsep]
  rw [fixRule_eq_self is0O 'o' t (pairwiseAdj_imp ?conv0 t hmis)]
  rw [fixRule_eq_self is1Il 'l' t (pairwiseAdj_imp ?conv1 t hmis)]
  rw [fixRule_eq_self is5S 's' t (pairwiseAdj_imp ?conv5 t hmis)]
  rw [collapse_eq_self t hws hadjws]
  exact htrim
  case conv0 =>
    intro a b hab
    cases h0 : is0O a with
    | false => simp [h0]
    | true =>
      have hm := mis_of_is0O a h0
      have hlow : lowerAlpha b = false := by
        cases hl : lowerAlpha b with
        | false => rfl
        | true => simp [adjNoMisLower, hm, hl] at hab
      simp [h0, hlow]
  case conv1 =>
    intro a b hab
    cases h1 : is1Il a with
    | false => simp [h1]
    | true =>
      simp only [is1Il, Bool.or_eq_true, decide_eq_true_eq] at h1
      rcases h1 with (rfl | rfl) | rfl
      · have hlow : lowerAlpha b = false := by
          cases hl : lowerAlpha b with
          | false => rfl
          | true => simp [adjNoMisLower, (by decide : misreadChar '1' = true), hl] at hab
        simp [(by decide : is1Il '1' = true), hlow]
      · have hlow : lowerAlpha b = false := by
          cases hl : lowerAlpha b with
          | false => rfl
          | true => simp [adjNoMisLower, (by decide : misreadChar 'I' = true), hl] at hab
        simp [(by decide : is1Il 'I' = true), hlow]
      · simp
  case conv5 =>
    intro a b hab
    cases h5 : is5S a with
    | false => simp [h5]
    | true =>
      have hm := mis_of_is5S a h5
      have hlow : lowerAlpha b = false := by
        cases hl : lowerAlpha b with
        | false => rfl
        | true => simp [adjNoMisLower, hm, hl] at hab
      simp [h5, hlow]

/-- C2 (amended): on every string in which no two adjacent characters both
belong to the misread class `{0, O, 1, I, 5, S}` — so that no correction
pass can create a fresh lower-case context for its left neighbour — the
normalizer is idempotent. -/
theorem claim2_clean_idempotent (l : List Char) (h : noAdjacentMisreads l = true) :
    cleanOCRText (cleanOCRText l) = cleanOCRText l := by
  have hPM0 : pairwiseAdj adjPM l = true := h
  have hPM1 : pairwiseAdj adjPM (stripSep l) = true := by
    apply pairwiseAdj_map _ ?_ l hPM0
    intro a b hab
    have hm : misreadChar ' ' = false := by decide
    by_cases hx : sepChar a = true
    · rw [if_pos hx]; simp [adjPM, hm]
    · rw [if_neg hx]
      by_cases hy : sepChar b = true
      · rw [if_pos hy]; simp [adjPM, hm]
      · rw [if_neg hy]; exact hab
  obtain ⟨hPM2, hA2s2⟩ := fix0O_stage (stripSep l) hPM1
  obtain ⟨hPM3, hA2s3, hA3s3⟩ := fix1Il_stage _ hPM2 hA2s2
  obtain ⟨hA2s4, hA3s4, hA5s4⟩ := fix5S_stage _ hPM3 hA2s3 hA3s3
  have hAF4 : pairwiseAdj adjNoMisLower
      (fixRule is5S 's' (fixRule is1Il 'l' (fixRule is0O 'o' (stripSep l)))) = true := by
    have h23 := pairwiseAdj_and _ hA2s4 hA3s4
    have h235 := pairwiseAdj_and _ h23 hA5s4
    apply pairwiseAdj_imp ?_ _ h235
    intro a b hab
    obtain ⟨h23ab, h5ab⟩ := (Bool.and_eq_true _ _).mp hab
    obtain ⟨h2ab, h3ab⟩ := (Bool.and_eq_true _ _).mp h23ab
    exact misLower_of a b h2ab h3ab h5ab
  have hAF5 := collapse_pairwise (Q := adjNoMisLower)
    (by intro a; simp [adjNoMisLower, (by decide : lowerAlpha ' ' = false)])
    (by intro b; simp [adjNoMisLower, (by decide : misreadChar ' ' = false)])
    _ hAF4
  have hAFt : pairwiseAdj adjNoMisLower (cleanOCRText l) = true :=
    trimEnds_pairwise _ hAF5
  have hwst : ∀ c ∈ cleanOCRText l, jsWhitespace c = true → c = ' ' := by
    intro c hct hw
    exact collapse_ws_space _ c (trimEnds_mem _ c hct) hw
  have hadjwst : pairwiseAdj adjNoWsPair (cleanOCRText l) = true :=
    trimEnds_pairwise _ (collapse_noAdjWs _)
  have hsept : ∀ c ∈ cleanOCRText l, sepChar c = false := by
    intro c hct
    rcases collapse_mem _ c (trimEnds_mem _ c hct) with hm4 | rfl
    · rcases fixRule_mem is5S 's' _ c hm4 with hm3 | rfl
      · rcases fixRule_mem is1Il 'l' _ c hm3 with hm2 | rfl
        · rcases fixRule_mem is0O 'o' _ c hm2 with hm1 | rfl
          · exact stripSep_no_sep _ c hm1
          · decide
        · decide
      · decide
    · decide
  exact clean_fixed (cleanOCRText l) hsept hAFt hwst hadjwst (trimEnds_trimEnds _)

/-- C2 (witness): the amended idempotence theorem applied to a concrete
string with no adjacent misread characters. -/
theorem claim2_witness :
    noAdjacentMisreads (("2-Pick Flex Play $4 to pay $36.75").toList) = true ∧
      cleanOCRText (cleanOCRText (("2-Pick Flex Play $4 to pay $36.75").toList)) =
        cleanOCRText (("2-Pick Flex Play $4 to pay $36.75").toList) :=
  ⟨by decide,
    claim2_clean_idempotent (("2-Pick Flex Play $4 to pay $36.75").toList) (by decide)⟩

/-! ## C7 — money-strategy arbitration (`selectBestMoneyResult`,
ocr-processor.ts 832–870) -/

/-- One money-extraction candidate `{entryAmount, potentialPayout,
confidence}` (the `strategy` name attached by `extractMoneyAmountsRobust`
is only logged and is dropped here). -/
structure MoneyResult where
  entryAmount : ℚ
  potentialPayout : ℚ
  confidence : ℚ
  deriving DecidableEq

instance : IsTotal MoneyResult (fun a b => b.confidence ≤ a.confidence) :=
  ⟨fun a b => le_total b.confidence a.confidence⟩

instance : IsTrans MoneyResult (fun a b => b.confidence ≤ a.confidence) :=
  ⟨fun _ _ _ hab hbc => le_trans hbc hab⟩

/-- `selectBestMoneyResult`: drop candidates with non-positive entry or
payout, stable-sort the rest by descending confidence (ES2019 `sort` is
stable) and take the first; if none remain, return the documented default
`{2.5, 7.5, 0.2}` (written with `mkRat` so the definition computes). -/
def selectBestMoneyResult (results : List MoneyResult) : MoneyResult :=
  match List.insertionSort (fun a b => b.confidence ≤ a.confidence)
      (results.filter (fun r => 0 < r.entryAmount && 0 < r.potentialPayout)) with
  | [] => ⟨mkRat 5 2, mkRat 15 2, mkRat 1 5⟩
  | best :: _ => ⟨best.entryAmount, best.potentialPayout, best.confidence⟩

/-- C7: arbitration discards every candidate with non-positive entry or
payout; when no candidate survives it returns the hard default
`entry = 2.5, payout = 7.5, confidence = 0.2`, and otherwise it returns a
surviving candidate of maximal confidence. -/
theorem claim7_money_arbitration (results : List MoneyResult) :
    (results.filter (fun r => 0 < r.entryAmount && 0 < r.potentialPayout) = [] →
      selectBestMoneyResult results = ⟨5/2, 15/2, 1/5⟩) ∧
    (∀ v vs,
      results.filter (fun r => 0 < r.entryAmount && 0 < r.potentialPayout) = v :: vs →
      selectBestMoneyResult results ∈
          results.filter (fun r => 0 < r.entryAmount && 0 < r.potentialPayout) ∧
        ∀ x ∈ results.filter (fun r => 0 < r.entryAmount && 0 < r.potentialPayout),
          x.confidence ≤ (selectBestMoneyResult results).confidence) := by
  constructor
  · intro hemp
    unfold selectBestMoneyResult
    rw [hemp]
    show (⟨mkRat 5 2, mkRat 15 2, mkRat 1 5⟩ : MoneyResult) = ⟨5/2, 15/2, 1/5⟩
    norm_num [Rat.mkRat_eq_div]
  · intro v vs hne
    have hperm := List.perm_insertionSort (fun a b => b.confidence ≤ a.confidence)
      (results.filter (fun r => 0 < r.entryAmount && 0 < r.potentialPayout))
    have hsorted := List.sorted_insertionSort (fun a b => b.confidence ≤ a.confidence)
      (results.filter (fun r => 0 < r.entryAmount && 0 < r.potentialPayout))
    cases hS : List.insertionSort (fun a b => b.confidence ≤ a.confidence)
        (results.filter (fun r => 0 < r.entryAmount && 0 < r.potentialPayout)) with
    | nil =>
      exfalso
      rw [hS, hne] at hperm
      have hlen := hperm.length_eq
      simp at hlen
    | cons best rest =>
      have hsel : selectBestMoneyResult results =
          ⟨best.entryAmount, best.potentialPayout, best.confidence⟩ := by
        unfold selectBestMoneyResult
        rw [hS]
      have hbv : (⟨best.entryAmount, best.potentialPayout, best.confidence⟩ : MoneyResult)
          = best := rfl
      constructor
      · rw [hsel, hbv]
        have hmem : best ∈ List.insertionSort (fun a b => b.confidence ≤ a.confidence)
            (results.filter (fun r => 0 < r.entryAmount && 0 < r.potentialPayout)) := by
          rw [hS]
          simp
        exact hperm.mem_iff.mp hmem
      · intro x hx
        rw [hsel, hbv]
        have hxs := hperm.mem_iff.mpr hx
        rw [hS] at hxs
        rcases List.mem_cons.mp hxs with rfl | hxr
        · exact le_refl _
        · rw [hS] at hsorted
          exact (List.pairwise_cons.mp hsorted).1 x hxr

/-- C7 (witness): the arbitration theorem applied to a concrete candidate
list in which both candidates survive the filter; the returned candidate
is one of them with maximal confidence. -/
theorem claim7_witness :
    ([⟨1, 2, mkRat 1 2⟩, ⟨3, 4, mkRat 9 10⟩] : List MoneyResult).filter
        (fun r => 0 < r.entryAmount && 0 < r.potentialPayout) =
      (⟨1, 2, mkRat 1 2⟩ : MoneyResult) :: [⟨3, 4, mkRat 9 10⟩] ∧
    (selectBestMoneyResult [⟨1, 2, mkRat 1 2⟩, ⟨3, 4, mkRat 9 10⟩] ∈
        ([⟨1, 2, mkRat 1 2⟩, ⟨3, 4, mkRat 9 10⟩] : List MoneyResult).filter
          (fun r => 0 < r.entryAmount && 0 < r.potentialPayout) ∧
      ∀ x ∈ ([⟨1, 2, mkRat 1 2⟩, ⟨3, 4, mkRat 9 10⟩] : List MoneyResult).filter
          (fun r => 0 < r.entryAmount && 0 < r.potentialPayout),
        x.confidence ≤ (selectBestMoneyResult [⟨1, 2, mkRat 1 2⟩, ⟨3, 4, mkRat 9 10⟩]).confidence) :=
  ⟨by decide,
    (claim7_money_arbitration [⟨1, 2, mkRat 1 2⟩, ⟨3, 4, mkRat 9 10⟩]).2
      ⟨1, 2, mkRat 1 2⟩ [⟨3, 4, mkRat 9 10⟩] (by decide)⟩

/-! ## C6 — direct dollar-pattern strategy (`extractDirectDollarPatterns`,
ocr-processor.ts 633–668)

The four `exec` loops are modelled by one scanner per regex.  Each
pattern function examines one candidate start position and returns the
captured amount together with the total number of characters the match
consumed; the scanner advances one position on failure and jumps past the
match on success, exactly like `lastIndex` does for a `/g` regex. -/

/-- JS `parseFloat` of a matched group `<digits>[.<digits>]`, exactly. -/
def decVal (intDigits fracDigits : List Char) : ℚ :=
  mkRat (digitsVal (intDigits ++ fracDigits)) (10 ^ fracDigits.length)

/-- Case-insensitive literal match: `kw` (given lower-case) is a prefix of
the text at this position. -/
def matchCI : List Char → List Char → Bool
  | [], _ => true
  | _ :: _, [] => false
  | k :: ks, c :: cs => (toLowerChar c = k) && matchCI ks cs

/-- Run one single-position matcher over the whole text like a `/g` exec
loop: `skip` positions are still covered by the previous match. -/
def scanMatches (parse : List Char → Option (ℚ × ℕ)) : ℕ → List Char → List ℚ
  | _, [] => []
  | Nat.succ k, _ :: rest => scanMatches parse k rest
  | 0, c :: rest =>
      match parse (c :: rest) with
      | some (q, used) => q :: scanMatches parse (used - 1) rest
      | none => scanMatches parse 0 rest

/-- One attempt of `/\$(\d+\.\d{2})/` at the current position. -/
def dollarPat1 : List Char → Option (ℚ × ℕ)
  | '$' :: rest =>
      let ds := rest.takeWhile digitChar
      if ds.isEmpty then none
      else
        match rest.drop ds.length with
        | '.' :: d1 :: d2 :: _ =>
            if digitChar d1 && digitChar d2 then
              some (decVal ds [d1, d2], 1 + ds.length + 3)
            else none
        | _ => none
  | _ => none

/-- The group `\d+\.?\d{0,2}` (greedy digits, optional dot, up to two
fraction digits), shared by patterns 2 and 4. -/
def amountGroup (l : List Char) : Option (ℚ × ℕ) :=
  let ds := l.takeWhile digitChar
  if ds.isEmpty then none
  else
    match l.drop ds.length with
    | '.' :: rest2 =>
        let fr := (rest2.takeWhile digitChar).take 2
        some (decVal ds fr, ds.length + 1 + fr.length)
    | _ => some (decVal ds [], ds.length)

/-- One attempt of `/\$(\d+\.?\d{0,2})/` at the current position. -/
def dollarPat2 : List Char → Option (ℚ × ℕ)
  | '$' :: rest =>
      match amountGroup rest with
      | some (q, used) => some (q, 1 + used)
      | none => none
  | _ => none

/-- One attempt of `/(\d+\.\d{2})\s*dollars?/i` at the current position. -/
def dollarPat3 (l : List Char) : Option (ℚ × ℕ) :=
  let ds := l.takeWhile digitChar
  if ds.isEmpty then none
  else
    match l.drop ds.length with
    | '.' :: d1 :: d2 :: rest3 =>
        if digitChar d1 && digitChar d2 then
          let wsr := rest3.takeWhile jsWhitespace
          if matchCI (("dollar").toList) (rest3.drop wsr.length) then
            let sLen : ℕ :=
              match (rest3.drop wsr.length).drop 6 with
              | 's' :: _ => 1
              | 'S' :: _ => 1
              | _ => 0
            some (decVal ds [d1, d2], ds.length + 3 + wsr.length + 6 + sLen)
          else none
        else none
    | _ => none

/-- One attempt of `/\$\s*(\d+\.?\d{0,2})/` at the current position. -/
def dollarPat4 : List Char → Option (ℚ × ℕ)
  | '$' :: rest =>
      let wsr := rest.takeWhile jsWhitespace
      match amountGroup (rest.drop wsr.length) with
      | some (q, used) => some (q, 1 + wsr.length + used)
      | none => none
  | _ => none

/-- All amounts collected by the four dollar patterns, kept only when in
`[0.10, 10000]` (the source checks the range before each push, which
equals filtering the concatenation). -/
def directDollarAmounts (text : List Char) : List ℚ :=
  (scanMatches dollarPat1 0 text ++ scanMatches dollarPat2 0 text ++
    scanMatches dollarPat3 0 text ++ scanMatches dollarPat4 0 text).filter
    (fun a => mkRat 1 10 ≤ a && a ≤ 10000)

/-- Shared tail of the direct-dollar and numeric strategies: deduplicate
(`new Set`), sort ascending, and when at least two distinct amounts remain
return `{min, max, conf}`, else the `{0, 0, 0.1}` sentinel. -/
def minMaxResult (amounts : List ℚ) (conf : ℚ) : MoneyResult :=
  match List.insertionSort (· ≤ ·) amounts.dedup with
  | a :: _ :: _ =>
      ⟨a, (List.insertionSort (· ≤ ·) amounts.dedup).getLastD 0, conf⟩
  | _ => ⟨0, 0, mkRat 1 10⟩

/-- `extractDirectDollarPatterns`: min/max of the kept distinct amounts at
confidence 0.9. -/
def extractDirectDollarPatterns (text : List Char) : MoneyResult :=
  minMaxResult (directDollarAmounts text) (mkRat 9 10)

theorem mem_of_getLast_eq {S : List ℚ} {y : ℚ} (h : S.getLast? = some y) : y ∈ S := by
  induction S with
  | nil => simp at h
  | cons a t ih =>
    cases t with
    | nil =>
      simp at h
      simp [h]
    | cons b tt =>
      rw [List.getLast?_cons_cons] at h
      exact List.mem_cons_of_mem a (ih h)

theorem sorted_le_getLast {S : List ℚ} (hs : S.Sorted (· ≤ ·)) :
    ∀ x ∈ S, ∀ y, S.getLast? = some y → x ≤ y := by
  induction S with
  | nil => simp
  | cons a t ih =>
    intro x hx y hy
    cases t with
    | nil =>
      simp at hy hx
      rw [hx, ← hy]
    | cons b tt =>
      rw [List.getLast?_cons_cons] at hy
      rcases List.mem_cons.mp hx with rfl | hxt
      · have hmem := mem_of_getLast_eq hy
        exact (List.pairwise_cons.mp hs).1 y hmem
      · exact ih (List.pairwise_cons.mp hs).2 x hxt y hy

/-- C6: every amount the direct dollar strategy keeps lies in
`[0.10, 10000]`; whenever at least two distinct amounts are kept the
strategy returns the minimum as `entryAmount`, the maximum as
`potentialPayout` and confidence `0.9`; and on the concrete text
`"$5 $5 $35"` it returns entry 5, payout 35, confidence 0.9. -/
theorem claim6_direct_dollar :
    (∀ t x, x ∈ directDollarAmounts t → 1 / 10 ≤ x ∧ x ≤ 10000) ∧
    (∀ t, 2 ≤ (directDollarAmounts t).dedup.length →
      (extractDirectDollarPatterns t).entryAmount ∈ directDollarAmounts t ∧
      (∀ x ∈ directDollarAmounts t, (extractDirectDollarPatterns t).entryAmount ≤ x) ∧
      (extractDirectDollarPatterns t).potentialPayout ∈ directDollarAmounts t ∧
      (∀ x ∈ directDollarAmounts t, x ≤ (extractDirectDollarPatterns t).potentialPayout) ∧
      (extractDirectDollarPatterns t).confidence = 9 / 10) ∧
    extractDirectDollarPatterns (("$5 $5 $35").toList) = ⟨5, 35, 9 / 10⟩ := by
  refine ⟨?_, ?_, ?_⟩
  · intro t x hx
    obtain ⟨-, hp⟩ := List.mem_filter.mp hx
    simp only [Bool.and_eq_true, decide_eq_true_eq] at hp
    have hmk : (mkRat 1 10 : ℚ) = 1 / 10 := by norm_num [Rat.mkRat_eq_div]
    exact ⟨hmk ▸ hp.1, hp.2⟩
  · intro t hlen
    have hperm := List.perm_insertionSort (α := ℚ) (· ≤ ·) (directDollarAmounts t).dedup
    have hsorted := List.sorted_insertionSort (α := ℚ) (· ≤ ·) (directDollarAmounts t).dedup
    have hlenS : 2 ≤ (List.insertionSort (· ≤ ·) (directDollarAmounts t).dedup).length := by
      rw [hperm.length_eq]
      exact hlen
    cases hS : List.insertionSort (· ≤ ·) (directDollarAmounts t).dedup with
    | nil => rw [hS] at hlenS; simp at hlenS
    | cons a t2 =>
      cases t2 with
      | nil => rw [hS] at hlenS; simp at hlenS
      | cons b rest =>
        have hext : extractDirectDollarPatterns t =
            ⟨a, (List.insertionSort (· ≤ ·) (directDollarAmounts t).dedup).getLastD 0,
              mkRat 9 10⟩ := by
          unfold extractDirectDollarPatterns minMaxResult
          rw [hS]
        have hmemS : ∀ x : ℚ, x ∈ a :: b :: rest ↔ x ∈ directDollarAmounts t := by
          intro x
          rw [← hS, hperm.mem_iff, List.mem_dedup]
        cases hy : ((a :: b :: rest : List ℚ)).getLast? with
        | none =>
          exfalso
          rw [List.getLast?_eq_none_iff] at hy
          exact absurd hy (by simp)
        | some y =>
          have hglD : ((a :: b :: rest) : List ℚ).getLastD 0 = y := by
            rw [List.getLastD_eq_getLast?, hy]
            rfl
          rw [hext, hS, hglD]
          rw [hS] at hsorted
          refine ⟨?_, ?_, ?_, ?_, ?_⟩
          · exact (hmemS a).mp (by simp)
          · intro x hx
            have hxS := (hmemS x).mpr hx
            rcases List.mem_cons.mp hxS with rfl | hxbt
            · exact le_refl _
            · exact (List.pairwise_cons.mp hsorted).1 x hxbt
          · exact (hmemS y).mp (mem_of_getLast_eq hy)
          · intro x hx
            exact sorted_le_getLast hsorted x ((hmemS x).mpr hx) y hy
          · show (mkRat 9 10 : ℚ) = 9 / 10
            norm_num [Rat.mkRat_eq_div]
  · have h910 : (9 / 10 : ℚ) = mkRat 9 10 := by norm_num [Rat.mkRat_eq_div]
    rw [h910]
    decide

/-- C6 (witness): the min/max clause of the theorem applied to the
concrete text `"$5 $5 $35"`, whose kept-amount list has the two distinct
values 5 and 35. -/
theorem claim6_witness :
    2 ≤ (directDollarAmounts (("$5 $5 $35").toList)).dedup.length ∧
      ((extractDirectDollarPatterns (("$5 $5 $35").toList)).entryAmount ∈
          directDollarAmounts (("$5 $5 $35").toList) ∧
        (∀ x ∈ directDollarAmounts (("$5 $5 $35").toList),
          (extractDirectDollarPatterns (("$5 $5 $35").toList)).entryAmount ≤ x) ∧
        (extractDirectDollarPatterns (("$5 $5 $35").toList)).potentialPayout ∈
          directDollarAmounts (("$5 $5 $35").toList) ∧
        (∀ x ∈ directDollarAmounts (("$5 $5 $35").toList),
          x ≤ (extractDirectDollarPatterns (("$5 $5 $35").toList)).potentialPayout) ∧
        (extractDirectDollarPatterns (("$5 $5 $35").toList)).confidence = 9 / 10) :=
  ⟨by decide, claim6_direct_dollar.2.1 (("$5 $5 $35").toList) (by decide)⟩

/-! ## C10 — combined robust money extraction
(`extractMoneyAmountsRobust` and strategies 2–4,
ocr-processor.ts 588–630, 671–750, 753–829) -/

/-- `kw[:\s]*\$?(\d+\.?\d{0,2})` at the current position (`kw` matched
case-insensitively).  The greedy `[:\s]*` run and the optional `$` admit
no productive backtracking: every shorter separator run leaves a
separator character where a digit or `$` is required. -/
def ctxKwGroup (kw l : List Char) : Option (ℚ × List Char) :=
  if matchCI kw l then
    let after := l.drop kw.length
    let seps := after.takeWhile (fun c => c = ':' || jsWhitespace c)
    let after2 := after.drop seps.length
    match after2 with
    | '$' :: rest2 => (amountGroup rest2).map (fun p => (p.1, rest2.drop p.2))
    | _ => (amountGroup after2).map (fun p => (p.1, after2.drop p.2))
  else none

/-- The lazy `.*?` before the second keyword: try the tail pattern at the
current position first, then step over one more character, stopping at a
line terminator (JS `.` does not match `\n`/`\r`). -/
def ctxTail (kw2 : List Char) : List Char → Option ℚ
  | [] => none
  | c :: rest =>
      match ctxKwGroup kw2 (c :: rest) with
      | some (q, _) => some q
      | none => if c = '\n' || c = '\r' then none else ctxTail kw2 rest

/-- One attempt of `/kw1[:\s]*\$?(G).*?kw2[:\s]*\$?(G)/i` at the current
position. -/
def ctxPattern (kw1 kw2 l : List Char) : Option (ℚ × ℚ) :=
  match ctxKwGroup kw1 l with
  | some (q1, restAfter) =>
      match ctxTail kw2 restAfter with
      | some q2 => some (q1, q2)
      | none => none
  | none => none

/-- One attempt of `/\$(G)\s+to\s+pay\s+\$(G)/i` at the current position.
The `\s+` runs admit no backtracking either: giving characters back would
put a non-whitespace letter where whitespace is required. -/
def toPayPattern : List Char → Option (ℚ × ℚ)
  | '$' :: rest =>
      match amountGroup rest with
      | some (q1, used) =>
          let after := rest.drop used
          let ws1 := after.takeWhile jsWhitespace
          if ws1.isEmpty then none
          else
            let a2 := after.drop ws1.length
            if matchCI (("to").toList) a2 then
              let a3 := a2.drop 2
              let ws2 := a3.takeWhile jsWhitespace
              if ws2.isEmpty then none
              else
                let a4 := a3.drop ws2.length
                if matchCI (("pay").toList) a4 then
                  let a5 := a4.drop 3
                  let ws3 := a5.takeWhile jsWhitespace
                  if ws3.isEmpty then none
                  else
                    match a5.drop ws3.length with
                    | '$' :: rest2 => (amountGroup rest2).map (fun p => (q1, p.1))
                    | _ => none
                else none
            else none
      | none => none
  | _ => none

/-- Leftmost match of a two-amount pattern: try every start position. -/
def findFirstPair (parse : List Char → Option (ℚ × ℚ)) : List Char → Option (ℚ × ℚ)
  | [] => none
  | c :: rest =>
      match parse (c :: rest) with
      | some r => some r
      | none => findFirstPair parse rest

/-- The `for` loop of `extractContextualAmounts`: take the first pattern
whose match has both amounts positive (a match with a non-positive amount
does not return; the loop moves on). -/
def firstValidPair : List (Option (ℚ × ℚ)) → Option (ℚ × ℚ)
  | [] => none
  | o :: rest =>
      match o with
      | some (a1, a2) => if 0 < a1 && 0 < a2 then some (a1, a2) else firstValidPair rest
      | none => firstValidPair rest

/-- `extractContextualAmounts`: the four contextual regexes in source
order; min of the two amounts is the entry, max the payout, at
confidence 0.8; sentinel `{0, 0, 0.1}` when no pattern yields two
positive amounts. -/
def extractContextualAmounts (text : List Char) : MoneyResult :=
  match firstValidPair
      [findFirstPair (ctxPattern (("entry").toList) (("payout").toList)) text,
       findFirstPair toPayPattern text,
       findFirstPair (ctxPattern (("bet").toList) (("win").toList)) text,
       findFirstPair (ctxPattern (("stake").toList) (("return").toList)) text] with
  | some (a1, a2) => ⟨min a1 a2, max a1 a2, mkRat 8 10⟩
  | none => ⟨0, 0, mkRat 1 10⟩

/-- One attempt of `/\b(\d{1,3}\.\d{2})\b/` at a position already known to
sit on a word boundary: at most three digits (a longer run cannot match:
shrinking the greedy `\d{1,3}` leaves a digit where the dot must be), a
dot, exactly two digits, then a non-word character or the end. -/
def numPatA (l : List Char) : Option (ℚ × ℕ) :=
  let ds := l.takeWhile digitChar
  if ds.isEmpty || 3 < ds.length then none
  else
    match l.drop ds.length with
    | '.' :: d1 :: d2 :: rest3 =>
        if digitChar d1 && digitChar d2 then
          match rest3 with
          | [] => some (decVal ds [d1, d2], ds.length + 3)
          | e :: _ =>
              if wordChar e then none else some (decVal ds [d1, d2], ds.length + 3)
        else none
    | _ => none

/-- One attempt of `/\b(\d{1,4})\b/`: a maximal digit run of length at
most four delimited by non-word characters (shorter greedy attempts end
inside the run, between two word characters, where `\b` fails). -/
def numPatB (l : List Char) : Option (ℚ × ℕ) :=
  let ds := l.takeWhile digitChar
  if ds.isEmpty || 4 < ds.length then none
  else
    match l.drop ds.length with
    | [] => some (decVal ds [], ds.length)
    | e :: _ => if wordChar e then none else some (decVal ds [], ds.length)

/-- `exec` loop of a word-boundary pattern, tracking whether the previous
character is a word character (start-of-string counts as non-word). -/
def scanBoundary (pat : List Char → Option (ℚ × ℕ)) : ℕ → Bool → List Char → List ℚ
  | _, _, [] => []
  | Nat.succ k, _, c :: rest => scanBoundary pat k (wordChar c) rest
  | 0, pw, c :: rest =>
      if pw then scanBoundary pat 0 (wordChar c) rest
      else
        match pat (c :: rest) with
        | some (q, used) => q :: scanBoundary pat (used - 1) (wordChar c) rest
        | none => scanBoundary pat 0 (wordChar c) rest

/-- The decimal-drop correction of strategy 3, applied to the dot-free
matches of the second pattern: a bare 3- or 4-digit value is divided
by 100 (`250 → 2.50`, `2500 → 25.00`). -/
def correctNumeric (a : ℚ) : ℚ :=
  if 100 ≤ a ∧ a ≤ 999 then qdivN a 100
  else if 1000 ≤ a ∧ a ≤ 9999 then qdivN a 100
  else a

/-- All values collected by `extractNumericPatternsWithCorrection`: the
decimal pattern's matches contain a dot, so the correction never applies
to them; the bare-number pattern's matches are corrected, and each value
is kept only when in `[0.10, 10000]` (checked before each push). -/
def numericAmounts (text : List Char) : List ℚ :=
  (scanBoundary numPatA 0 false text).filter (fun a => mkRat 1 10 ≤ a && a ≤ 10000) ++
    ((scanBoundary numPatB 0 false text).map correctNumeric).filter
      (fun a => mkRat 1 10 ≤ a && a ≤ 10000)

/-- `extractNumericPatternsWithCorrection`: min/max of the kept distinct
values at confidence 0.6. -/
def extractNumericPatternsWithCorrection (text : List Char) : MoneyResult :=
  minMaxResult (numericAmounts text) (mkRat 6 10)

/-- One `{entry, payout}` reference pair of the strategy-4 table. -/
structure LineupPair where
  entry : ℚ
  payout : ℚ
  deriving DecidableEq

/-- The `lineupPatterns` table of `extractLineupSpecificAmounts`; an
unknown lineup type falls back to the `"2-Pick"` row
(`lineupPatterns[lineupType] || lineupPatterns["2-Pick"]`). -/
def lineupPatternsFor (lineupType : List Char) : List LineupPair :=
  if lineupType = ("2-Pick").toList then
    [⟨mkRat 5 2, mkRat 15 2⟩, ⟨5, 15⟩, ⟨5, mkRat 35 2⟩, ⟨5, 20⟩, ⟨mkRat 84 10, mkRat 672 10⟩]
  else if lineupType = ("3-Pick").toList then
    [⟨mkRat 5 2, 15⟩, ⟨5, 30⟩, ⟨10, 30⟩, ⟨15, 30⟩]
  else if lineupType = ("4-Pick").toList then
    [⟨5, 35⟩, ⟨6, mkRat 975 100⟩, ⟨10, 100⟩]
  else if lineupType = ("5-Pick").toList then
    [⟨10, 200⟩]
  else if lineupType = ("6-Pick").toList then
    [⟨4, 25⟩, ⟨5, 125⟩, ⟨5, 130⟩, ⟨6, mkRat 1575 10⟩, ⟨10, 100⟩, ⟨10, mkRat 23125 100⟩]
  else
    [⟨mkRat 5 2, mkRat 15 2⟩, ⟨5, 15⟩, ⟨5, mkRat 35 2⟩, ⟨5, 20⟩, ⟨mkRat 84 10, mkRat 672 10⟩]

/-- One match of `/\d+\.?\d*/` at the current position (greedy digits,
optional dot, greedy fraction digits). -/
def numTokenPat (l : List Char) : Option (ℚ × ℕ) :=
  let ds := l.takeWhile digitChar
  if ds.isEmpty then none
  else
    match l.drop ds.length with
    | '.' :: rest2 =>
        let fr := rest2.takeWhile digitChar
        some (decVal ds fr, ds.length + 1 + fr.length)
    | _ => some (decVal ds [], ds.length)

/-- `extractLineupSpecificAmounts`: the first table pair whose entry and
payout both appear among the text's numbers (within 0.1, or within 1 of
the 100-fold value) is returned at confidence 0.7; otherwise the first
pair of the table at confidence 0.3.  Every table row is non-empty, so
the final `[]` case is unreachable. -/
def extractLineupSpecificAmounts (text lineupType : List Char) : MoneyResult :=
  match (lineupPatternsFor lineupType).find? (fun p =>
      ((scanMatches numTokenPat 0 text).any
        (fun n => |n - p.entry| < mkRat 1 10 || |n - qmul p.entry 100| < 1)) &&
      ((scanMatches numTokenPat 0 text).any
        (fun n => |n - p.payout| < mkRat 1 10 || |n - qmul p.payout 100| < 1))) with
  | some p => ⟨p.entry, p.payout, mkRat 7 10⟩
  | none =>
      match lineupPatternsFor lineupType with
      | p0 :: _ => ⟨p0.entry, p0.payout, mkRat 3 10⟩
      | [] => ⟨0, 0, mkRat 3 10⟩

/-- `extractMoneyAmountsRobust`: run the four strategies and arbitrate by
confidence. -/
def extractMoneyAmountsRobust (ocrText lineupType : List Char) : MoneyResult :=
  selectBestMoneyResult
    [extractDirectDollarPatterns ocrText,
      extractContextualAmounts ocrText,
      extractNumericPatternsWithCorrection ocrText,
      extractLineupSpecificAmounts ocrText lineupType]

theorem minMaxResult_inv (amounts : List ℚ) (conf : ℚ) :
    minMaxResult amounts conf = ⟨0, 0, mkRat 1 10⟩ ∨
      (minMaxResult amounts conf).entryAmount ≤
        (minMaxResult amounts conf).potentialPayout := by
  have hsorted := List.sorted_insertionSort (α := ℚ) (· ≤ ·) amounts.dedup
  cases hS : List.insertionSort (· ≤ ·) amounts.dedup with
  | nil =>
    left
    unfold minMaxResult
    rw [hS]
  | cons a t2 =>
    cases t2 with
    | nil =>
      left
      unfold minMaxResult
      rw [hS]
    | cons b rest =>
      right
      have hext : minMaxResult amounts conf =
          ⟨a, (List.insertionSort (· ≤ ·) amounts.dedup).getLastD 0, conf⟩ := by
        unfold minMaxResult
        rw [hS]
      rw [hext, hS]
      rw [hS] at hsorted
      cases hy : ((a :: b :: rest : List ℚ)).getLast? with
      | none =>
        exfalso
        rw [List.getLast?_eq_none_iff] at hy
        exact absurd hy (by simp)
      | some y =>
        have hglD : ((a :: b :: rest) : List ℚ).getLastD 0 = y := by
          rw [List.getLastD_eq_getLast?, hy]
          rfl
        rw [hglD]
        exact sorted_le_getLast hsorted a (by simp) y hy

theorem firstValidPair_pos :
    ∀ os a1 a2, firstValidPair os = some (a1, a2) → 0 < a1 ∧ 0 < a2 := by
  intro os
  induction os with
  | nil => intro a1 a2 h; simp [firstValidPair] at h
  | cons o rest ih =>
    intro a1 a2 h
    match o with
    | none => exact ih a1 a2 h
    | some (b1, b2) =>
      by_cases hb : (0 < b1 && 0 < b2) = true
      · rw [show firstValidPair (some (b1, b2) :: rest) = some (b1, b2) from by
          simp [firstValidPair, hb]] at h
        injection h with hpair
        injection hpair with he1 he2
        subst he1
        subst he2
        simp only [Bool.and_eq_true, decide_eq_true_eq] at hb
        exact hb
      · rw [show firstValidPair (some (b1, b2) :: rest) = firstValidPair rest from by
          simp [firstValidPair, hb]] at h
        exact ih a1 a2 h

theorem contextual_inv (t : List Char) :
    extractContextualAmounts t = ⟨0, 0, mkRat 1 10⟩ ∨
      (0 < (extractContextualAmounts t).entryAmount ∧
        (extractContextualAmounts t).entryAmount ≤
          (extractContextualAmounts t).potentialPayout) := by
  unfold extractContextualAmounts
  cases hF : firstValidPair
      [findFirstPair (ctxPattern (("entry").toList) (("payout").toList)) t,
       findFirstPair toPayPattern t,
       findFirstPair (ctxPattern (("bet").toList) (("win").toList)) t,
       findFirstPair (ctxPattern (("stake").toList) (("return").toList)) t] with
  | none => left; rfl
  | some p =>
    right
    obtain ⟨h1, h2⟩ := firstValidPair_pos _ p.1 p.2 (by rw [hF])
    exact ⟨lt_min h1 h2, min_le_max⟩

theorem lineup_pairs_pos (ty : List Char) (p : LineupPair)
    (hp : p ∈ lineupPatternsFor ty) : 0 < p.entry ∧ p.entry ≤ p.payout := by
  unfold lineupPatternsFor at hp
  split_ifs at hp <;> (fin_cases hp <;> exact ⟨by decide, by decide⟩)

theorem lineup_inv (t ty : List Char) :
    extractLineupSpecificAmounts t ty = ⟨0, 0, mkRat 3 10⟩ ∨
      (0 < (extractLineupSpecificAmounts t ty).entryAmount ∧
        (extractLineupSpecificAmounts t ty).entryAmount ≤
          (extractLineupSpecificAmounts t ty).potentialPayout) := by
  unfold extractLineupSpecificAmounts
  cases hF : (lineupPatternsFor ty).find? (fun p =>
      ((scanMatches numTokenPat 0 t).any
        (fun n => |n - p.entry| < mkRat 1 10 || |n - qmul p.entry 100| < 1)) &&
      ((scanMatches numTokenPat 0 t).any
        (fun n => |n - p.payout| < mkRat 1 10 || |n - qmul p.payout 100| < 1))) with
  | some p =>
    right
    exact lineup_pairs_pos ty p (List.mem_of_find?_eq_some hF)
  | none =>
    cases hP : lineupPatternsFor ty with
    | nil => left; rfl
    | cons p0 tl =>
      right
      exact lineup_pairs_pos ty p0 (by rw [hP]; simp)

theorem selectBest_inv (rs : List MoneyResult)
    (h : ∀ r ∈ rs, 0 < r.entryAmount → 0 < r.potentialPayout →
      r.entryAmount ≤ r.potentialPayout) :
    0 < (selectBestMoneyResult rs).entryAmount ∧
      0 < (selectBestMoneyResult rs).potentialPayout ∧
      (selectBestMoneyResult rs).entryAmount ≤
        (selectBestMoneyResult rs).potentialPayout := by
  have hperm := List.perm_insertionSort (fun a b => b.confidence ≤ a.confidence)
    (rs.filter (fun r => 0 < r.entryAmount && 0 < r.potentialPayout))
  cases hS : List.insertionSort (fun a b => b.confidence ≤ a.confidence)
      (rs.filter (fun r => 0 < r.entryAmount && 0 < r.potentialPayout)) with
  | nil =>
    have hsel : selectBestMoneyResult rs = ⟨mkRat 5 2, mkRat 15 2, mkRat 1 5⟩ := by
      unfold selectBestMoneyResult
      rw [hS]
    rw [hsel]
    exact ⟨by decide, by decide, by decide⟩
  | cons best rest =>
    have hsel : selectBestMoneyResult rs =
        ⟨best.entryAmount, best.potentialPayout, best.confidence⟩ := by
      unfold selectBestMoneyResult
      rw [hS]
    have hmem : best ∈ rs.filter (fun r => 0 < r.entryAmount && 0 < r.potentialPayout) := by
      apply hperm.mem_iff.mp
      rw [hS]
      simp
    obtain ⟨hin, hp⟩ := List.mem_filter.mp hmem
    simp only [Bool.and_eq_true, decide_eq_true_eq] at hp
    rw [hsel]
    exact ⟨hp.1, hp.2, h best hin hp.1 hp.2⟩

/-- C10: the combined robust money extraction always returns a strictly
positive entry, a strictly positive payout, and an entry no greater than
the payout, for every input text and lineup type: every strategy
candidate that survives the arbitration filter has entry ≤ payout (the
min/max strategies sort, the contextual strategy takes min and max, and
every table pair and the default satisfy it), and arbitration returns a
surviving candidate or the default `2.50/7.50`. -/
theorem claim10_robust_money_invariant (t ty : List Char) :
    0 < (extractMoneyAmountsRobust t ty).entryAmount ∧
      0 < (extractMoneyAmountsRobust t ty).potentialPayout ∧
      (extractMoneyAmountsRobust t ty).entryAmount ≤
        (extractMoneyAmountsRobust t ty).potentialPayout := by
  unfold extractMoneyAmountsRobust
  apply selectBest_inv
  intro r hr
  simp only [List.mem_cons, List.not_mem_nil, or_false] at hr
  rcases hr with rfl | rfl | rfl | rfl
  · intro he hp
    rcases minMaxResult_inv (directDollarAmounts t) (mkRat 9 10) with hz | hle
    · unfold extractDirectDollarPatterns at he
      rw [hz] at he
      exact absurd he (lt_irrefl 0)
    · exact hle
  · intro he hp
    rcases contextual_inv t with hz | ⟨hpos, hle⟩
    · rw [hz] at he
      exact absurd he (lt_irrefl 0)
    · exact hle
  · intro he hp
    rcases minMaxResult_inv (numericAmounts t) (mkRat 6 10) with hz | hle
    · unfold extractNumericPatternsWithCorrection at he
      rw [hz] at he
      exact absurd he (lt_irrefl 0)
    · exact hle
  · intro he hp
    rcases lineup_inv t ty with hz | ⟨hpos, hle⟩
    · rw [hz] at he
      exact absurd he (lt_irrefl 0)
    · exact hle

/- ===================================================================
   C3: purity of the direction defaults
   (`determineBetDirection`, ocr-processor.ts 2712-2754, and
   `getDefaultDirection`, ocr-processor.ts 2257-2269).
   Both functions call `Math.random()` on some paths; we model the
   single random draw as an explicit parameter `rng`, so a run of the
   JS code is the Lean function at some `rng`, and purity of a path
   is exactly rng-independence of the result on that path.
   =================================================================== -/

/-- The `"over" | "under"` result type of the direction helpers. -/
inductive Direction where
  | over : Direction
  | under : Direction
  deriving DecidableEq

/-- `Math.random() > 0.5 ? "over" : "under"` with the draw made
explicit. -/
def randomDirection (rng : ℚ) : Direction :=
  if mkRat 1 2 < rng then Direction.over else Direction.under

/-- `getDefaultDirection` (ocr-processor.ts 2257-2269): Golf is decided
by the line, every other sport by a fresh random draw.  Non-ASCII
characters are untouched by our `toLowerStr`, which only affects inputs
outside the ASCII range and none of the theorems below. -/
def getDefaultDirection (sport statType : List Char) (line rng : ℚ) : Direction :=
  if sport = ("Golf").toList then
    (if line < 69 then Direction.over else Direction.under)
  else randomDirection rng

/-- JS `haystack.indexOf(needle)` from position `i` (None for `-1`). -/
def jsIndexOfFrom (needle : List Char) : List Char → Nat → Option Nat
  | [], i => if needle.isPrefixOf ([] : List Char) then some i else none
  | c :: rest, i =>
      if needle.isPrefixOf (c :: rest) then some i
      else jsIndexOfFrom needle rest (i + 1)

/-- JS `haystack.indexOf(needle)`. -/
def jsIndexOf (haystack needle : List Char) : Option Nat :=
  jsIndexOfFrom needle haystack 0

/-- The four (mojibake) arrow indicator strings tested by
`determineBetDirection` (ocr-processor.ts 2730-2743). -/
def downIndicator1 : List Char := ("Ōåō").toList

def downIndicator2 : List Char := ("Ō¼ć").toList

def upIndicator1 : List Char := ("Ōåæ").toList

def upIndicator2 : List Char := ("Ō¼å").toList

/-- The indicator tests run on the `surrounding` window: down arrows or
`"under"` first, then up arrows or `"over"`, else no hint. -/
def surroundCheck (s : List Char) : Option Direction :=
  if strContains s downIndicator1 || strContains s downIndicator2 ||
      strContains s (("under").toList) then some Direction.under
  else if strContains s upIndicator1 || strContains s upIndicator2 ||
      strContains s (("over").toList) then some Direction.over
  else none

/-- The player-name hint of `determineBetDirection`: find the lowered
name in the lowered text, cut the 50-character window on each side
(`substring(max(0, i-50), min(len, i+|name|+50))`), and test the
indicators there. -/
def dirIndicatorScan (lowerText lowerName : List Char) : Option Direction :=
  match jsIndexOf lowerText lowerName with
  | none => none
  | some idx =>
      surroundCheck
        ((lowerText.take (min lowerText.length (idx + lowerName.length + 50))).drop
          (idx - 50))

/-- The `if (playerName)` guard: an absent or empty name (both falsy in
JS) yields no hint. -/
def hintDirection (lowerText : List Char) : Option (List Char) → Option Direction
  | none => none
  | some name => if name.isEmpty then none else dirIndicatorScan lowerText (toLowerStr name)

/-- `determineBetDirection` (ocr-processor.ts 2712-2754): indicator hint
near the player name, else line heuristic when `line` is truthy
(present and non-zero), else a random draw. -/
def determineBetDirection (text : List Char) (playerName : Option (List Char))
    (line : Option ℚ) (rng : ℚ) : Direction :=
  match hintDirection (toLowerStr text) playerName with
  | some d => d
  | none =>
      match line with
      | some v =>
          if v = 0 then randomDirection rng
          else if v < 20 then Direction.over else Direction.under
      | none => randomDirection rng

/-- C3 (counterexample): the extraction stages are NOT pure functions of
their inputs.  With the same textual inputs, two different values of the
`Math.random()` draw make `getDefaultDirection` (non-Golf sport) and
`determineBetDirection` (no name hint, no line) return different
directions. -/
theorem claim3_counterexample :
    getDefaultDirection (("Tennis").toList) (("Points").toList) 25 (mkRat 6 10) ≠
        getDefaultDirection (("Tennis").toList) (("Points").toList) 25 (mkRat 4 10) ∧
      determineBetDirection (("pick flex play").toList) none none (mkRat 6 10) ≠
        determineBetDirection (("pick flex play").toList) none none (mkRat 4 10) := by
  decide

/-- C3 (amended): direction extraction is deterministic exactly on the
paths that avoid the random fallback: `determineBetDirection` is
rng-independent whenever the `line` argument is truthy (present and
non-zero), and `getDefaultDirection` is rng-independent for Golf. -/
theorem claim3_direction_purity (text : List Char) (playerName : Option (List Char))
    (v : ℚ) (hv : v ≠ 0) (r1 r2 : ℚ) (st : List Char) (l : ℚ) :
    determineBetDirection text playerName (some v) r1 =
        determineBetDirection text playerName (some v) r2 ∧
      getDefaultDirection (("Golf").toList) st l r1 =
        getDefaultDirection (("Golf").toList) st l r2 := by
  constructor
  · unfold determineBetDirection
    cases hintDirection (toLowerStr text) playerName with
    | some d => rfl
    | none => simp [hv]
  · rfl

/-- C3 (witness): the purity theorem applied at a concrete truthy line
value and two distinct random draws. -/
theorem claim3_witness :
    (68 : ℚ) ≠ 0 ∧
      determineBetDirection (("Maxwell 68.5 under").toList) (some (("maxwell").toList))
          (some 68) (mkRat 1 10) =
        determineBetDirection (("Maxwell 68.5 under").toList) (some (("maxwell").toList))
          (some 68) (mkRat 9 10) :=
  ⟨by decide,
    (claim3_direction_purity (("Maxwell 68.5 under").toList) (some (("maxwell").toList))
        68 (by decide) (mkRat 1 10) (mkRat 9 10) (("Tennis").toList) 70).1⟩

/- ===================================================================
   C1: the direct-pattern entry point
   (`parseAdvancedPrizePickFromOCR`, ocr-processor.ts 1413-1429, and
   `tryDirectPatternMatching`, ocr-processor.ts 1432-1497).
   `tryDirectPatternMatching` is declared with the `function` keyword at
   module level (the `OCRProcessor` class ends at line 1242), so in this
   strict-mode ES module `this` is `undefined` inside it; as soon as a
   lineup pattern `/[2-6][-\s]*pick/i` is detected it evaluates
   `this.extractMoneyAmountsRobust(...)` (line 1462), which raises
   `TypeError: Cannot read properties of undefined`.  We model the throw
   with `Except.error JSError.typeError`; when no lineup pattern is
   detected the function returns `null` and the entry point falls back
   to the intelligent parser, modelled as an opaque-to-the-claim
   function argument `fallbackParse`.
   =================================================================== -/

/-- Skip the `[-\s]*` part of a lineup pattern (the following literal
`pick` starts with a character outside `[-\s]`, so greedy matching never
backtracks). -/
def skipDashWs : List Char → List Char
  | [] => []
  | c :: rest => if c = '-' || jsWhitespace c then skipDashWs rest else c :: rest

/-- JS `/d[-\s]*pick/i.test(text)` for a fixed digit `d`: some position
holds `d`, then dashes or whitespace, then `pick` case-insensitively. -/
def lineupPatternTest (d : Char) : List Char → Bool
  | [] => false
  | c :: rest =>
      (c = d && (("pick").toList).isPrefixOf (toLowerStr (skipDashWs rest)))
        || lineupPatternTest d rest

/-- One row of the `lineupPatterns` table of `tryDirectPatternMatching`
(ocr-processor.ts 1436-1442). -/
structure LineupPattern where
  digit : Char
  type : List Char
  playerCount : Nat

/-- The `lineupPatterns` detection table. -/
def lineupPatterns : List LineupPattern :=
  [⟨'2', ("2-Pick").toList, 2⟩, ⟨'3', ("3-Pick").toList, 3⟩,
   ⟨'4', ("4-Pick").toList, 4⟩, ⟨'5', ("5-Pick").toList, 5⟩,
   ⟨'6', ("6-Pick").toList, 6⟩]

/-- The structured lineup record built by the parsers (only the fields
relevant here; construction is never reached on the detected-pattern
path). -/
structure PrizePickLineup where
  type : List Char
  entryAmount : ℚ
  potentialPayout : ℚ
  deriving DecidableEq

/-- `tryDirectPatternMatching` (ocr-processor.ts 1432-1497): the first
matching lineup pattern leads straight into the
`this.extractMoneyAmountsRobust` call with `this === undefined`, a
TypeError; with no match it returns `null`. -/
def tryDirectPatternMatching (ocrText : List Char) :
    Except JSError (Option PrizePickLineup) :=
  match lineupPatterns.find? (fun p => lineupPatternTest p.digit ocrText) with
  | some _ => Except.error JSError.typeError
  | none => Except.ok none

/-- `parseAdvancedPrizePickFromOCR` (ocr-processor.ts 1413-1429): a
thrown TypeError propagates; a non-null direct result is returned as a
singleton; otherwise the intelligent fallback runs. -/
def parseAdvancedPrizePickFromOCR (ocrText : List Char)
    (fallbackParse : List Char → List PrizePickLineup) :
    Except JSError (List PrizePickLineup) :=
  match tryDirectPatternMatching ocrText with
  | Except.error e => Except.error e
  | Except.ok (some r) => Except.ok [r]
  | Except.ok none => Except.ok (fallbackParse ocrText)

/-- C1: refuted - the entry point CAN throw.  On the perfectly ordinary
slip text `2-Pick Flex Play $5 to pay $15` the lineup pattern is
detected, `tryDirectPatternMatching` reaches the undefined-`this` call
and raises a TypeError, and `parseAdvancedPrizePickFromOCR` propagates
it instead of returning a lineup record - whatever the fallback parser
would have produced. -/
theorem claim1_entry_point_throws (fallbackParse : List Char → List PrizePickLineup) :
    parseAdvancedPrizePickFromOCR (("2-Pick Flex Play $5 to pay $15").toList)
        fallbackParse =
      Except.error JSError.typeError := by
  unfold parseAdvancedPrizePickFromOCR
  rw [show tryDirectPatternMatching (("2-Pick Flex Play $5 to pay $15").toList) =
        Except.error JSError.typeError by rfl]
